import Mathlib

/-!
Verification of the GraphTEASAR skeletonization core (`GraphTEASAR/__init__.py`,
`GraphTEASAR/find_root.py`, `GraphTEASAR/utils.py`).

The graph algorithms of the source operate on a scipy sparse matrix with
floating point weights; here the weight type is an arbitrary linearly ordered
commutative ring `α` (instantiated at `ℤ` for concrete evaluations).  Shortest
path distances are `Option α`, with `none` playing the role of `+∞`
(`np.inf`): a scipy `dijkstra` result entry is `np.inf` exactly when the
vertex is unreachable (or outside the search radius `limit`), and the
corresponding model value is `none`.  The external `scipy.sparse.csgraph`
oracle is treated as exact (as the specification demands) and is modelled by
a Bellman-Ford style computation `sdist` together with a canonical
predecessor choice `dijPred`; scipy's predecessor/source tie-breaking is
heap-order dependent and unspecified, so the model fixes the lowest-index
choice.
-/

namespace GraphTEASAR

variable {α : Type} [LinearOrderedCommRing α]

/-- `x ≤ y` on distances, where `none` is `+∞`. -/
def ole : Option α → Option α → Prop
  | _, none => True
  | none, some _ => False
  | some a, some b => a ≤ b

/-- `x < y` on distances, where `none` is `+∞`. -/
def olt : Option α → Option α → Prop
  | none, _ => False
  | some _, none => True
  | some a, some b => a < b

instance (x y : Option α) : Decidable (ole x y) := by
  unfold ole
  cases x <;> cases y <;> infer_instance

instance (x y : Option α) : Decidable (olt x y) := by
  unfold olt
  cases x <;> cases y <;> infer_instance

/-- Add a finite weight to a distance. -/
def oadd : Option α → α → Option α
  | none, _ => none
  | some a, b => some (a + b)

/-- Minimum of two distances. -/
def omin : Option α → Option α → Option α
  | none, y => y
  | some a, none => some a
  | some a, some b => some (min a b)

theorem ole_refl (x : Option α) : ole x x := by
  cases x <;> simp [ole]

theorem ole_none (x : Option α) : ole x none := by
  cases x <;> simp [ole]

theorem not_olt_self (x : Option α) : ¬ olt x x := by
  cases x <;> simp [olt]

theorem ole_trans {x y z : Option α} (h1 : ole x y) (h2 : ole y z) : ole x z := by
  cases x <;> cases y <;> cases z <;> simp_all [ole] <;> exact le_trans h1 h2

theorem olt_of_olt_of_ole {x y z : Option α} (h1 : olt x y) (h2 : ole y z) : olt x z := by
  cases x <;> cases y <;> cases z <;> simp_all [ole, olt] <;> exact lt_of_lt_of_le h1 h2

theorem ole_of_olt {x y : Option α} (h : olt x y) : ole x y := by
  cases x <;> cases y <;> simp_all [ole, olt] <;> exact le_of_lt h

theorem ole_antisymm {x y : Option α} (h1 : ole x y) (h2 : ole y x) : x = y := by
  cases x <;> cases y <;> simp_all [ole]
  exact le_antisymm h1 h2

theorem ole_total (x y : Option α) : ole x y ∨ ole y x := by
  cases x <;> cases y <;> simp [ole]
  exact le_total _ _

theorem not_ole_iff_olt {x y : Option α} : ¬ ole x y ↔ olt y x := by
  cases x <;> cases y <;> simp [ole, olt]

theorem ole_some_iff {a b : α} : ole (some a) (some b) ↔ a ≤ b := Iff.rfl

theorem olt_some_iff {a b : α} : olt (some a) (some b) ↔ a < b := Iff.rfl

theorem olt_some_none {a : α} : olt (some a) none := trivial

theorem ole_none_iff {x : Option α} (h : ole none x) : x = none := by
  cases x
  · rfl
  · exact absurd h (by simp [ole])

theorem omin_le_left (x y : Option α) : ole (omin x y) x := by
  cases x <;> cases y <;> simp [omin, ole, min_le_left]

theorem omin_le_right (x y : Option α) : ole (omin x y) y := by
  cases x <;> cases y <;> simp [omin, ole, min_le_right]

theorem le_omin {c x y : Option α} (h1 : ole c x) (h2 : ole c y) : ole c (omin x y) := by
  cases c <;> cases x <;> cases y <;>
    first
    | exact trivial
    | simp_all [omin, ole]
    | exact le_min h1 h2
    | exact (by simpa [omin, ole] using le_min h1 h2)

theorem omin_eq_or (x y : Option α) : omin x y = x ∨ omin x y = y := by
  cases x with
  | none => exact Or.inr rfl
  | some a =>
    cases y with
    | none => exact Or.inl rfl
    | some b =>
      rcases le_total a b with h | h
      · exact Or.inl (by simp [omin, min_eq_left h])
      · exact Or.inr (by simp [omin, min_eq_right h])

theorem oadd_mono {x y : Option α} (c : α) (h : ole x y) : ole (oadd x c) (oadd y c) := by
  cases x <;> cases y <;> simp_all [oadd, ole]

theorem ole_oadd_some {a c : α} {x : Option α} :
    ole x (oadd (some a) c) ↔ ole x (some (a + c)) := Iff.rfl

theorem oadd_none (c : α) : oadd (none : Option α) c = none := rfl

/-!
## Graphs and walks

A scipy `csr_matrix` graph over `n` vertices: entry `w u v` is the stored
weight of the directed entry `(u, v)`; a zero entry means "no edge"
(`scipy.sparse.csgraph` convention).  `create_spatial_csgraph` builds
symmetric nonnegative matrices, which theorems assume through `Symm` and
`Nonneg` hypotheses; an edge is a strictly positive entry.
-/

structure SGraph (α : Type) where
  n : ℕ
  w : ℕ → ℕ → α

/-- Edge relation: a strictly positive stored weight between in-range vertices. -/
def SGraph.Adj (G : SGraph α) (u v : ℕ) : Prop :=
  u < G.n ∧ v < G.n ∧ 0 < G.w u v

instance (G : SGraph α) (u v : ℕ) : Decidable (G.Adj u v) :=
  inferInstanceAs (Decidable (u < G.n ∧ v < G.n ∧ 0 < G.w u v))

/-- The adjacency matrix is symmetric (undirected graph). -/
def SGraph.Symm (G : SGraph α) : Prop :=
  ∀ u < G.n, ∀ v < G.n, G.w u v = G.w v u

/-- All stored weights are nonnegative. -/
def SGraph.Nonneg (G : SGraph α) : Prop :=
  ∀ u < G.n, ∀ v < G.n, 0 ≤ G.w u v

instance (G : SGraph α) : Decidable G.Symm :=
  inferInstanceAs (Decidable (∀ u < G.n, ∀ v < G.n, G.w u v = G.w v u))

instance (G : SGraph α) : Decidable G.Nonneg :=
  inferInstanceAs (Decidable (∀ u < G.n, ∀ v < G.n, 0 ≤ G.w u v))

theorem SGraph.Adj.symm {G : SGraph α} (hs : G.Symm) {u v : ℕ} (h : G.Adj u v) :
    G.Adj v u :=
  ⟨h.2.1, h.1, by rw [← hs u h.1 v h.2.1]; exact h.2.2⟩

/-- Total weight of a walk given as a vertex list. -/
def wlen (G : SGraph α) : List ℕ → α
  | [] => 0
  | [_] => 0
  | u :: v :: p => G.w u v + wlen G (v :: p)

/-- A walk: a nonempty vertex list, consecutive vertices adjacent, all in range. -/
def IsWalk (G : SGraph α) (p : List ℕ) : Prop :=
  p ≠ [] ∧ List.Chain' G.Adj p ∧ ∀ v ∈ p, v < G.n

theorem wlen_single (G : SGraph α) (v : ℕ) : wlen G [v] = 0 := rfl

theorem wlen_cons2 (G : SGraph α) (u v : ℕ) (p : List ℕ) :
    wlen G (u :: v :: p) = G.w u v + wlen G (v :: p) := rfl

theorem wlen_nonneg (G : SGraph α) (hn : G.Nonneg) :
    ∀ p : List ℕ, (∀ v ∈ p, v < G.n) → 0 ≤ wlen G p
  | [] => fun _ => le_refl 0
  | [_] => fun _ => le_refl 0
  | u :: v :: p => fun hb => by
    rw [wlen_cons2]
    have h1 : 0 ≤ G.w u v :=
      hn u (hb u (by simp)) v (hb v (by simp))
    have h2 : 0 ≤ wlen G (v :: p) :=
      wlen_nonneg G hn (v :: p) (fun x hx => hb x (List.mem_cons_of_mem _ hx))
    linarith

theorem wlen_pos (G : SGraph α) (hn : G.Nonneg) :
    ∀ (u v : ℕ) (p : List ℕ), List.Chain' G.Adj (u :: v :: p) →
      (∀ x ∈ u :: v :: p, x < G.n) → 0 < wlen G (u :: v :: p) := by
  intro u v p hc hb
  rw [wlen_cons2]
  have hadj : G.Adj u v := List.chain'_cons.mp hc |>.1
  have h2 : 0 ≤ wlen G (v :: p) :=
    wlen_nonneg G hn (v :: p) (fun x hx => hb x (List.mem_cons_of_mem _ hx))
  have := hadj.2.2
  linarith

theorem wlen_concat (G : SGraph α) :
    ∀ (l : List ℕ) (x a : ℕ),
      wlen G ((x :: l) ++ [a]) = wlen G (x :: l) + G.w ((x :: l).getLastD 0) a
  | [], x, a => by simp [wlen_single, wlen_cons2]
  | y :: l, x, a => by
    have ih := wlen_concat G l y a
    simp only [List.cons_append] at ih ⊢
    rw [wlen_cons2, wlen_cons2, ih]
    simp [add_assoc]

theorem wlen_split (G : SGraph α) :
    ∀ (l₁ : List ℕ) (x : ℕ) (l₂ : List ℕ),
      wlen G (l₁ ++ x :: l₂) = wlen G (l₁ ++ [x]) + wlen G (x :: l₂)
  | [], x, l₂ => by simp [wlen_single]
  | [y], x, l₂ => by simp [wlen_cons2, wlen_single]
  | y :: z :: l₁, x, l₂ => by
    have ih := wlen_split G (z :: l₁) x l₂
    simp only [List.cons_append] at ih ⊢
    rw [wlen_cons2, wlen_cons2, ih, add_assoc]

theorem walk_head_lt {G : SGraph α} {p : List ℕ} (h : IsWalk G p) : p.headD 0 < G.n := by
  obtain ⟨hne, _, hb⟩ := h
  cases p with
  | nil => exact absurd rfl hne
  | cons x l => exact hb x (by simp)

theorem walk_last_lt {G : SGraph α} {p : List ℕ} (h : IsWalk G p) : p.getLastD 0 < G.n := by
  obtain ⟨hne, _, hb⟩ := h
  cases p with
  | nil => exact absurd rfl hne
  | cons x l =>
    refine hb _ ?_
    rw [show (x :: l).getLastD 0 = (x :: l).getLast (by simp) from ?_]
    · exact List.getLast_mem _
    · rw [List.getLastD_eq_getLast?, List.getLast?_eq_getLast _ (by simp)]
      rfl

theorem headD_append_ne {l l2 : List ℕ} (d : ℕ) (h : l ≠ []) :
    (l ++ l2).headD d = l.headD d := by
  cases l with
  | nil => exact absurd rfl h
  | cons x t => rfl

theorem getLastD_concat (l : List ℕ) (a d : ℕ) : (l ++ [a]).getLastD d = a := by
  rw [List.getLastD_eq_getLast?, List.getLast?_append]
  rfl

theorem getLastD_spec (l : List ℕ) (h : l ≠ []) : l.getLast? = some (l.getLastD 0) := by
  rw [List.getLastD_eq_getLast?, List.getLast?_eq_getLast l h]
  rfl

/-!
## Shortest path distances (the `scipy.sparse.csgraph.dijkstra` oracle)

`bf G S k v` is the least weight of a walk from a source in `S` to `v` using
at most `k` edges; `sdist G S v = bf G S G.n v` equals, for nonnegative
weights, the exact (multi-source) shortest-path distance, `none` meaning
unreachable (`np.inf`).
-/

/-- One Bellman-Ford relaxation sweep at vertex `v`. -/
def relax (G : SGraph α) (f : ℕ → Option α) (v : ℕ) : Option α :=
  (List.range G.n).foldl
    (fun acc u => if G.Adj u v then omin acc (oadd (f u) (G.w u v)) else acc) (f v)

section FoldlOmin

variable (P : ℕ → Prop) [DecidablePred P] (g : ℕ → Option α)

theorem foldl_omin_le_init :
    ∀ (l : List ℕ) (a : Option α),
      ole (l.foldl (fun acc u => if P u then omin acc (g u) else acc) a) a
  | [], a => ole_refl a
  | u :: l, a => by
    refine ole_trans (foldl_omin_le_init l _) ?_
    by_cases h : P u <;> simp [h]
    · exact omin_le_left _ _
    · exact ole_refl a

theorem foldl_omin_le_mem :
    ∀ (l : List ℕ) (a : Option α) (u : ℕ), u ∈ l → P u →
      ole (l.foldl (fun acc u => if P u then omin acc (g u) else acc) a) (g u)
  | [], _, u, hu, _ => absurd hu (List.not_mem_nil u)
  | x :: l, a, u, hu, hP => by
    rcases List.mem_cons.mp hu with rfl | hu
    · refine ole_trans (foldl_omin_le_init P g l _) ?_
      simp only [hP, if_pos]
      exact omin_le_right _ _
    · exact foldl_omin_le_mem l _ u hu hP

theorem foldl_omin_cases :
    ∀ (l : List ℕ) (a : Option α),
      l.foldl (fun acc u => if P u then omin acc (g u) else acc) a = a ∨
        ∃ u ∈ l, P u ∧
          l.foldl (fun acc u => if P u then omin acc (g u) else acc) a = g u
  | [], a => Or.inl rfl
  | x :: l, a => by
    simp only [List.foldl_cons]
    rcases foldl_omin_cases l (if P x then omin a (g x) else a) with h | ⟨u, hu, hP, h⟩
    · by_cases hx : P x
      · rw [h, if_pos hx]
        rcases omin_eq_or a (g x) with h2 | h2
        · exact Or.inl h2
        · exact Or.inr ⟨x, by simp, hx, h2⟩
      · rw [h, if_neg hx]
        exact Or.inl rfl
    · exact Or.inr ⟨u, List.mem_cons_of_mem _ hu, hP, h⟩

end FoldlOmin

theorem relax_le_self (G : SGraph α) (f : ℕ → Option α) (v : ℕ) :
    ole (relax G f v) (f v) :=
  foldl_omin_le_init _ _ _ _

theorem relax_le_adj (G : SGraph α) (f : ℕ → Option α) {u v : ℕ} (h : G.Adj u v) :
    ole (relax G f v) (oadd (f u) (G.w u v)) :=
  foldl_omin_le_mem (fun u => G.Adj u v) (fun u => oadd (f u) (G.w u v))
    (List.range G.n) (f v) u (List.mem_range.mpr h.1) h

theorem relax_cases (G : SGraph α) (f : ℕ → Option α) (v : ℕ) :
    relax G f v = f v ∨ ∃ u, G.Adj u v ∧ relax G f v = oadd (f u) (G.w u v) := by
  rcases foldl_omin_cases (fun u => G.Adj u v) (fun u => oadd (f u) (G.w u v))
      (List.range G.n) (f v) with h | ⟨u, _, hP, h⟩
  · exact Or.inl h
  · exact Or.inr ⟨u, hP, h⟩

/-- Least walk weight from a source in `S` to `v` among walks of at most `k` edges. -/
def bf (G : SGraph α) (S : List ℕ) : ℕ → ℕ → Option α
  | 0, v => if v ∈ S ∧ v < G.n then some 0 else none
  | k+1, v => relax G (bf G S k) v

/-- The shortest-path distance oracle (`sparse.csgraph.dijkstra`, exact). -/
def sdist (G : SGraph α) (S : List ℕ) (v : ℕ) : Option α := bf G S G.n v

theorem bf_le_pred (G : SGraph α) (S : List ℕ) (k v) :
    ole (bf G S (k+1) v) (bf G S k v) :=
  relax_le_self G _ v

theorem bf_le_of_le (G : SGraph α) (S : List ℕ) {k m : ℕ} (h : k ≤ m) (v : ℕ) :
    ole (bf G S m v) (bf G S k v) := by
  induction m with
  | zero => cases Nat.le_zero.mp h; exact ole_refl _
  | succ m ih =>
    rcases Nat.lt_or_ge k (m+1) with h2 | h2
    · exact ole_trans (bf_le_pred G S m v) (ih (Nat.lt_succ_iff.mp h2))
    · cases le_antisymm h h2; exact ole_refl _

theorem bf_achieves (G : SGraph α) (S : List ℕ) :
    ∀ (k v : ℕ) (d : α), bf G S k v = some d →
      ∃ p, IsWalk G p ∧ p.headD 0 ∈ S ∧ p.getLastD 0 = v ∧ wlen G p = d ∧
        p.length ≤ k + 1
  | 0, v, d, h => by
    rw [bf] at h
    split at h
    · rename_i hv
      refine ⟨[v], ⟨by simp, List.chain'_singleton v, by simpa using hv.2⟩,
        by simpa using hv.1, rfl, ?_, by simp⟩
      simpa [wlen_single] using (Option.some_inj.mp h)
    · exact absurd h (by simp)
  | k+1, v, d, h => by
    rw [bf] at h
    rcases relax_cases G (bf G S k) v with h2 | ⟨u, hadj, h2⟩
    · rw [h2] at h
      obtain ⟨p, hw, hh, hl, hwl, hlen⟩ := bf_achieves G S k v d h
      exact ⟨p, hw, hh, hl, hwl, hlen.trans (Nat.le_succ _)⟩
    · rw [h2] at h
      match hu : bf G S k u with
      | none => rw [hu] at h; exact absurd h (by simp [oadd])
      | some du =>
        rw [hu] at h
        obtain ⟨p, hw, hh, hl, hwl, hlen⟩ := bf_achieves G S k u du hu
        have hpne : p ≠ [] := hw.1
        refine ⟨p ++ [v], ?_, ?_, getLastD_concat p v 0, ?_, ?_⟩
        · refine ⟨by simp, ?_, ?_⟩
          · rw [List.chain'_append]
            refine ⟨hw.2.1, List.chain'_singleton v, ?_⟩
            intro x hx y hy
            rw [getLastD_spec p hpne, Option.mem_def, Option.some_inj] at hx
            simp only [List.head?_cons, Option.mem_def, Option.some_inj] at hy
            cases hx
            cases hy
            rw [hl]
            exact hadj
          · intro x hx
            rcases List.mem_append.mp hx with hx | hx
            · exact hw.2.2 x hx
            · rw [List.mem_singleton.mp hx]; exact hadj.2.1
        · rw [headD_append_ne 0 hpne]; exact hh
        · cases p with
          | nil => exact absurd rfl hpne
          | cons x l =>
            rw [wlen_concat G l x v, hwl]
            have : (x :: l).getLastD 0 = u := hl
            rw [this]
            simpa [oadd] using (Option.some_inj.mp h)
        · simpa using Nat.add_le_add_right hlen 1

theorem bf_le_wlen (G : SGraph α) (S : List ℕ) :
    ∀ (k : ℕ) (p : List ℕ), IsWalk G p → p.headD 0 ∈ S → p.length ≤ k + 1 →
      ole (bf G S k (p.getLastD 0)) (some (wlen G p)) := by
  intro k
  induction k with
  | zero =>
    intro p hw hh hlen
    match p, hw with
    | [v], hw =>
      simp only [List.headD_cons] at hh
      have hgl : ([v] : List ℕ).getLastD 0 = v := by simp
      rw [hgl, wlen_single, bf, if_pos ⟨hh, hw.2.2 v (by simp)⟩]
      exact ole_refl _
    | v :: x :: l, hw => simp at hlen
  | succ k ih =>
    intro p hw hh hlen
    rcases List.eq_nil_or_concat p with rfl | ⟨l, a, rfl⟩
    · exact absurd rfl hw.1
    · rw [List.concat_eq_append] at hw hh hlen ⊢
      cases l with
      | nil =>
        simp only [List.nil_append] at hw hh ⊢
        simp only [List.headD_cons] at hh
        have hgl : ([a] : List ℕ).getLastD 0 = a := by simp
        rw [hgl, wlen_single]
        refine ole_trans (bf_le_of_le G S (Nat.zero_le _) a) ?_
        rw [bf, if_pos ⟨hh, hw.2.2 a (by simp)⟩]
        exact ole_refl _
      | cons x t =>
        have hlne : (x :: t) ≠ [] := by simp
        have hchain := hw.2.1
        rw [List.chain'_append] at hchain
        have hadj : G.Adj ((x :: t).getLastD 0) a := by
          refine hchain.2.2 _ ?_ a (by simp)
          rw [getLastD_spec _ hlne]; rfl
        have hsub : IsWalk G (x :: t) :=
          ⟨hlne, hchain.1, fun y hy => hw.2.2 y (List.mem_append_left _ hy)⟩
        have hh2 : (x :: t).headD 0 ∈ S := by
          rwa [headD_append_ne 0 hlne] at hh
        have hlen2 : (x :: t).length ≤ k + 1 := by
          have := hlen
          simp only [List.length_append, List.length_singleton] at this
          omega
        have hih := ih (x :: t) hsub hh2 hlen2
        rw [getLastD_concat, bf]
        refine ole_trans (relax_le_adj G (bf G S k) hadj) ?_
        refine ole_trans (oadd_mono _ hih) ?_
        rw [wlen_concat G t x a]
        exact ole_refl _

theorem getLastD_append_ne {l l2 : List ℕ} (d : ℕ) (h : l2 ≠ []) :
    (l ++ l2).getLastD d = l2.getLastD d := by
  rw [List.getLastD_eq_getLast?, List.getLast?_append,
    List.getLast?_eq_getLast l2 h, List.getLastD_eq_getLast?,
    List.getLast?_eq_getLast l2 h]
  rfl

theorem sublist_pair_decomp {x : ℕ} :
    ∀ {l : List ℕ}, List.Sublist [x, x] l →
      ∃ l1 l2 l3, l = l1 ++ x :: (l2 ++ x :: l3) := by
  intro l
  induction l with
  | nil => intro h; exact absurd (List.eq_nil_of_sublist_nil h) (by simp)
  | cons y t ih =>
    intro h
    cases h with
    | cons _ h2 =>
      obtain ⟨l1, l2, l3, rfl⟩ := ih h2
      exact ⟨y :: l1, l2, l3, rfl⟩
    | cons₂ h2 =>
      rename_i h2
      have hx : x ∈ t := List.singleton_sublist.mp h2
      obtain ⟨s, t2, rfl⟩ := List.append_of_mem hx
      exact ⟨[], s, t2, rfl⟩

theorem exists_dup_decomp {p : List ℕ} (h : ¬ p.Nodup) :
    ∃ x l1 l2 l3, p = l1 ++ x :: (l2 ++ x :: l3) := by
  obtain ⟨x, hx⟩ := List.exists_duplicate_iff_not_nodup.mpr h
  obtain ⟨l1, l2, l3, hp⟩ := sublist_pair_decomp (List.duplicate_iff_sublist.mp hx)
  exact ⟨x, l1, l2, l3, hp⟩

/-- Any walk can be shortened to a walk of at most `G.n` vertices with the same
endpoints and no greater weight (cycle cutting, nonnegative weights). -/
theorem walk_shorten (G : SGraph α) (hn : G.Nonneg) :
    ∀ (N : ℕ) (p : List ℕ), p.length ≤ N → IsWalk G p →
      ∃ q, IsWalk G q ∧ q.headD 0 = p.headD 0 ∧ q.getLastD 0 = p.getLastD 0 ∧
        wlen G q ≤ wlen G p ∧ q.length ≤ G.n := by
  intro N
  induction N with
  | zero =>
    intro p hlen hw
    rw [Nat.le_zero, List.length_eq_zero] at hlen
    exact absurd hlen hw.1
  | succ N ih =>
    intro p hlen hw
    by_cases hsmall : p.length ≤ G.n
    · exact ⟨p, hw, rfl, rfl, le_refl _, hsmall⟩
    · have hnodup : ¬ p.Nodup := by
        intro hnd
        have h1 : p.toFinset.card = p.length := List.toFinset_card_of_nodup hnd
        have h2 : p.toFinset ⊆ Finset.range G.n := by
          intro v hv
          rw [List.mem_toFinset] at hv
          rw [Finset.mem_range]
          exact hw.2.2 v hv
        have h3 := Finset.card_le_card h2
        rw [h1, Finset.card_range] at h3
        omega
      obtain ⟨x, l1, l2, l3, rfl⟩ := exists_dup_decomp hnodup
      have hchain := hw.2.1
      rw [List.chain'_append] at hchain
      have hchain2 : List.Chain' G.Adj ((x :: l2) ++ (x :: l3)) := by
        simpa using hchain.2.1
      rw [List.chain'_append] at hchain2
      have hq0 : IsWalk G (l1 ++ x :: l3) := by
        refine ⟨by simp, ?_, ?_⟩
        · rw [List.chain'_append]
          refine ⟨hchain.1, hchain2.2.1, ?_⟩
          intro a ha b hb
          refine hchain.2.2 a ha b ?_
          simpa using hb
        · intro v hv
          refine hw.2.2 v ?_
          rcases List.mem_append.mp hv with hv | hv
          · exact List.mem_append_left _ hv
          · rcases List.mem_cons.mp hv with rfl | hv
            · exact List.mem_append_right _ (by simp)
            · exact List.mem_append_right _ (by simp [hv])
      have hwlt : wlen G (l1 ++ x :: l3) ≤ wlen G (l1 ++ x :: (l2 ++ x :: l3)) := by
        have e1 : wlen G (l1 ++ x :: (l2 ++ x :: l3)) =
            wlen G (l1 ++ [x]) + wlen G (x :: (l2 ++ x :: l3)) :=
          wlen_split G l1 x (l2 ++ x :: l3)
        have e2 : wlen G (x :: (l2 ++ x :: l3)) =
            wlen G ((x :: l2) ++ [x]) + wlen G (x :: l3) := by
          have := wlen_split G (x :: l2) x l3
          simpa using this
        have e3 : wlen G (l1 ++ x :: l3) = wlen G (l1 ++ [x]) + wlen G (x :: l3) :=
          wlen_split G l1 x l3
        have h0 : 0 ≤ wlen G ((x :: l2) ++ [x]) := by
          refine wlen_nonneg G hn _ ?_
          intro v hv
          refine hw.2.2 v ?_
          rcases List.mem_append.mp hv with hv | hv
          · rcases List.mem_cons.mp hv with rfl | hv
            · exact List.mem_append_right _ (by simp)
            · exact List.mem_append_right _ (by simp [hv])
          · rw [List.mem_singleton.mp hv]
            exact List.mem_append_right _ (by simp)
        rw [e1, e2, e3]
        linarith
      have hhead : (l1 ++ x :: l3).headD 0 = (l1 ++ x :: (l2 ++ x :: l3)).headD 0 := by
        cases l1 with
        | nil => rfl
        | cons y t => rfl
      have hlast : (l1 ++ x :: l3).getLastD 0 =
          (l1 ++ x :: (l2 ++ x :: l3)).getLastD 0 := by
        rw [getLastD_append_ne 0 (by simp : (x :: l3 : List ℕ) ≠ []),
          getLastD_append_ne 0 (by simp : (x :: (l2 ++ x :: l3) : List ℕ) ≠ [])]
        rw [show (x :: (l2 ++ x :: l3) : List ℕ) = (x :: l2) ++ (x :: l3) by simp,
          getLastD_append_ne 0 (by simp : (x :: l3 : List ℕ) ≠ [])]
      have hlen2 : (l1 ++ x :: l3).length ≤ N := by
        have h1 : (l1 ++ x :: l3).length < (l1 ++ x :: (l2 ++ x :: l3)).length := by
          simp only [List.length_append, List.length_cons]
          omega
        omega
      obtain ⟨q, hq, hh, hl, hlew, hlenq⟩ := ih (l1 ++ x :: l3) hlen2 hq0
      exact ⟨q, hq, hh.trans hhead, hl.trans hlast, le_trans hlew hwlt, hlenq⟩

/-- `sdist` is a lower bound on the weight of every walk from `S`. -/
theorem sdist_le_wlen (G : SGraph α) (hn : G.Nonneg) (S : List ℕ) (p : List ℕ)
    (hw : IsWalk G p) (hh : p.headD 0 ∈ S) :
    ole (sdist G S (p.getLastD 0)) (some (wlen G p)) := by
  obtain ⟨q, hq, hqh, hql, hlew, hlenq⟩ := walk_shorten G hn p.length p (le_refl _) hw
  have h1 : ole (bf G S G.n (q.getLastD 0)) (some (wlen G q)) := by
    refine bf_le_wlen G S G.n q hq ?_ ?_
    · rw [hqh]; exact hh
    · omega
  rw [hql] at h1
  exact ole_trans h1 (by simpa [ole] using hlew)

/-- `sdist` is attained by a walk from `S` (when finite). -/
theorem sdist_achieves (G : SGraph α) (S : List ℕ) (v : ℕ) (d : α)
    (h : sdist G S v = some d) :
    ∃ p, IsWalk G p ∧ p.headD 0 ∈ S ∧ p.getLastD 0 = v ∧ wlen G p = d := by
  obtain ⟨p, hw, hh, hl, hwl, _⟩ := bf_achieves G S G.n v d h
  exact ⟨p, hw, hh, hl, hwl⟩

theorem sdist_lt_n {G : SGraph α} {S : List ℕ} {v : ℕ} {d : α}
    (h : sdist G S v = some d) : v < G.n := by
  obtain ⟨p, hw, _, hl, _⟩ := sdist_achieves G S v d h
  rw [← hl]
  exact walk_last_lt hw

theorem sdist_nonneg (G : SGraph α) (hn : G.Nonneg) (S : List ℕ) (v : ℕ) :
    ole (some 0) (sdist G S v) := by
  match h : sdist G S v with
  | none => exact ole_none _
  | some d =>
    obtain ⟨p, hw, _, _, hwl⟩ := sdist_achieves G S v d h
    rw [ole_some_iff, ← hwl]
    exact wlen_nonneg G hn p hw.2.2

theorem sdist_source (G : SGraph α) (hn : G.Nonneg) {S : List ℕ} {s : ℕ}
    (hs : s ∈ S) (hlt : s < G.n) : sdist G S s = some 0 := by
  have h1 : ole (sdist G S s) (some 0) := by
    have := sdist_le_wlen G hn S [s] ⟨by simp, List.chain'_singleton s, by simpa⟩
      (by simpa using hs)
    simpa [wlen_single] using this
  exact ole_antisymm h1 (sdist_nonneg G hn S s)

theorem sdist_eq_zero_mem (G : SGraph α) (hn : G.Nonneg) {S : List ℕ} {v : ℕ}
    (h : sdist G S v = some 0) : v ∈ S := by
  obtain ⟨p, hw, hh, hl, hwl⟩ := sdist_achieves G S v 0 h
  match p, hw, hh, hl, hwl with
  | [x], hw, hh, hl, hwl =>
    simp only [List.headD_cons] at hh
    have : ([x] : List ℕ).getLastD 0 = x := by simp
    rw [this] at hl
    rw [← hl]; exact hh
  | x :: y :: t, hw, hh, hl, hwl =>
    have := wlen_pos G hn x y t hw.2.1 hw.2.2
    rw [hwl] at this
    exact absurd this (by simp)

/-- Multi-source distance is below each single-source distance. -/
theorem sdist_multi_le (G : SGraph α) (hn : G.Nonneg) {S : List ℕ} {s : ℕ}
    (hs : s ∈ S) (v : ℕ) : ole (sdist G S v) (sdist G [s] v) := by
  match h : sdist G [s] v with
  | none => exact ole_none _
  | some d =>
    obtain ⟨p, hw, hh, hl, hwl⟩ := sdist_achieves G [s] v d h
    have hh2 : p.headD 0 ∈ S := by
      rw [List.mem_singleton.mp hh]; exact hs
    have := sdist_le_wlen G hn S p hw hh2
    rw [hl, hwl] at this
    exact this

/-- Multi-source distance is attained by some single source. -/
theorem sdist_multi_attained (G : SGraph α) (hn : G.Nonneg) {S : List ℕ} {v : ℕ}
    {d : α} (h : sdist G S v = some d) :
    ∃ s ∈ S, sdist G [s] v = some d := by
  obtain ⟨p, hw, hh, hl, hwl⟩ := sdist_achieves G S v d h
  refine ⟨p.headD 0, hh, ?_⟩
  have h1 : ole (sdist G [p.headD 0] v) (some d) := by
    have := sdist_le_wlen G hn [p.headD 0] p hw (by simp)
    rw [hl, hwl] at this
    exact this
  have h2 : ole (sdist G S v) (sdist G [p.headD 0] v) := sdist_multi_le G hn hh v
  rw [h] at h2
  exact ole_antisymm h1 h2

/-- One edge step: `sdist S v ≤ sdist S u + w u v` for an edge `(u, v)`. -/
theorem sdist_adj_le (G : SGraph α) (hn : G.Nonneg) (S : List ℕ) {u v : ℕ}
    (hadj : G.Adj u v) : ole (sdist G S v) (oadd (sdist G S u) (G.w u v)) := by
  match h : sdist G S u with
  | none => rw [oadd_none]; exact ole_none _
  | some d =>
    obtain ⟨p, hw, hh, hl, hwl⟩ := sdist_achieves G S u d h
    have hpne := hw.1
    have hwalk : IsWalk G (p ++ [v]) := by
      refine ⟨by simp, ?_, ?_⟩
      · rw [List.chain'_append]
        refine ⟨hw.2.1, List.chain'_singleton v, ?_⟩
        intro a ha b hb
        rw [getLastD_spec p hpne, Option.mem_def, Option.some_inj] at ha
        simp only [List.head?_cons, Option.mem_def, Option.some_inj] at hb
        cases ha; cases hb
        rw [hl]; exact hadj
      · intro x hx
        rcases List.mem_append.mp hx with hx | hx
        · exact hw.2.2 x hx
        · rw [List.mem_singleton.mp hx]; exact hadj.2.1
    have := sdist_le_wlen G hn S (p ++ [v]) hwalk
      (by rw [headD_append_ne 0 hpne]; exact hh)
    rw [getLastD_concat] at this
    have hwl2 : wlen G (p ++ [v]) = d + G.w u v := by
      cases p with
      | nil => exact absurd rfl hpne
      | cons x t =>
        rw [wlen_concat G t x v, hwl]
        have : (x :: t).getLastD 0 = u := hl
        rw [this]
    rw [hwl2] at this
    exact this

/-- Prepending an edge at the source: `sdist [a] c ≤ sdist [b] c + w a b`. -/
theorem sdist_cons_src_le (G : SGraph α) (hn : G.Nonneg) {a b : ℕ} (c : ℕ)
    (hadj : G.Adj a b) : ole (sdist G [a] c) (oadd (sdist G [b] c) (G.w a b)) := by
  match h : sdist G [b] c with
  | none => rw [oadd_none]; exact ole_none _
  | some d =>
    obtain ⟨p, hw, hh, hl, hwl⟩ := sdist_achieves G [b] c d h
    have hpne := hw.1
    have hhb : p.headD 0 = b := List.mem_singleton.mp hh
    have hwalk : IsWalk G (a :: p) := by
      refine ⟨by simp, ?_, ?_⟩
      · cases p with
        | nil => exact absurd rfl hpne
        | cons x t =>
          rw [List.chain'_cons]
          refine ⟨?_, hw.2.1⟩
          simp only [List.headD_cons] at hhb
          rw [hhb]; exact hadj
      · intro x hx
        rcases List.mem_cons.mp hx with rfl | hx
        · exact hadj.1
        · exact hw.2.2 x hx
    have := sdist_le_wlen G hn [a] (a :: p) hwalk (by simp)
    have hlast : (a :: p).getLastD 0 = c := by
      rw [show (a :: p : List ℕ) = [a] ++ p by simp, getLastD_append_ne 0 hpne]
      exact hl
    rw [hlast] at this
    have hwl2 : wlen G (a :: p) = d + G.w a b := by
      cases p with
      | nil => exact absurd rfl hpne
      | cons x t =>
        rw [wlen_cons2, hwl]
        simp only [List.headD_cons] at hhb
        rw [hhb, add_comm]
    rw [hwl2] at this
    exact this

/-!
## Radius-limited queries, predecessors, and source attribution

`limDist` models `dijkstra(..., limit=lim)`: entries farther than `lim` are
reported as `np.inf` (`none`), entries within the limit are exact.  `dijPred`
is the canonical predecessor array (scipy's choice among equal-cost
predecessors is heap-order dependent; the model picks the least index).
`srcAttrib` models the `sources` output of a `min_only` multi-source query.
-/

/-- Radius-limited shortest-path distance. -/
def limDist (G : SGraph α) (S : List ℕ) (lim : α) (v : ℕ) : Option α :=
  match sdist G S v with
  | none => none
  | some d => if d ≤ lim then some d else none

/-- Canonical dijkstra predecessor: the least-index neighbour on a shortest path. -/
def dijPred (G : SGraph α) (S : List ℕ) (v : ℕ) : Option ℕ :=
  match sdist G S v with
  | none => none
  | some d =>
    if v ∈ S then none
    else (List.range G.n).find?
      (fun u => decide (G.Adj u v) && decide (sdist G S u = some (d - G.w u v)))

/-- Predecessor array of a radius-limited query (sentinel outside the radius). -/
def limPred (G : SGraph α) (S : List ℕ) (lim : α) (v : ℕ) : Option ℕ :=
  match limDist G S lim v with
  | none => none
  | some _ => dijPred G S v

/-- `sources` array of a `min_only` multi-source limited query: the first
source attaining the multi-source distance. -/
def srcAttrib (G : SGraph α) (S : List ℕ) (lim : α) (v : ℕ) : Option ℕ :=
  match limDist G S lim v with
  | none => none
  | some _ => S.find? (fun s₀ => decide (sdist G [s₀] v = sdist G S v))

theorem limDist_eq_some_iff {G : SGraph α} {S : List ℕ} {lim : α} {v : ℕ} {d : α} :
    limDist G S lim v = some d ↔ sdist G S v = some d ∧ d ≤ lim := by
  unfold limDist
  constructor
  · intro h2
    split at h2
    · exact absurd h2 (by simp)
    · rename_i e he
      split at h2
      · cases Option.some_inj.mp h2
        exact ⟨he, by assumption⟩
      · exact absurd h2 (by simp)
  · rintro ⟨h2, h3⟩
    simp [h2, if_pos h3]

theorem limDist_ne_none {G : SGraph α} {S : List ℕ} {lim : α} {v : ℕ}
    (h : limDist G S lim v ≠ none) : ∃ d, sdist G S v = some d ∧ d ≤ lim := by
  match h2 : limDist G S lim v with
  | none => exact absurd h2 h
  | some d => exact ⟨d, limDist_eq_some_iff.mp h2⟩

theorem limDist_of_sdist {G : SGraph α} {S : List ℕ} {lim : α} {v : ℕ} {d : α}
    (h : sdist G S v = some d) (hle : d ≤ lim) : limDist G S lim v = some d :=
  limDist_eq_some_iff.mpr ⟨h, hle⟩

theorem dijPred_spec {G : SGraph α} {S : List ℕ} {v u : ℕ}
    (h : dijPred G S v = some u) :
    G.Adj u v ∧ v ∉ S ∧ ∃ d, sdist G S v = some d ∧
      sdist G S u = some (d - G.w u v) := by
  unfold dijPred at h
  split at h
  · exact absurd h (by simp)
  · rename_i d hd
    split at h
    · exact absurd h (by simp)
    · have hmem := List.mem_of_find?_eq_some h
      have hfind := List.find?_some h
      rw [Bool.and_eq_true, decide_eq_true_eq, decide_eq_true_eq] at hfind
      exact ⟨hfind.1, by assumption, d, hd, hfind.2⟩

theorem olt_trans {x y z : Option α} (h1 : olt x y) (h2 : olt y z) : olt x z :=
  olt_of_olt_of_ole h1 (ole_of_olt h2)

theorem dijPred_strict {G : SGraph α} {S : List ℕ} {v u : ℕ}
    (h : dijPred G S v = some u) : olt (sdist G S u) (sdist G S v) := by
  obtain ⟨hadj, _, d, hv, hu⟩ := dijPred_spec h
  rw [hv, hu, olt_some_iff]
  have := hadj.2.2
  linarith

theorem dijPred_isSome (G : SGraph α) (hn : G.Nonneg) {S : List ℕ} {v : ℕ} {d : α}
    (h : sdist G S v = some d) (hv : v ∉ S) : ∃ u, dijPred G S v = some u := by
  obtain ⟨p, hw, hh, hl, hwl⟩ := sdist_achieves G S v d h
  rcases List.eq_nil_or_concat p with rfl | ⟨l, a, rfl⟩
  · exact absurd rfl hw.1
  · rw [List.concat_eq_append] at hw hh hl hwl
    have ha : a = v := by rw [← hl, getLastD_concat]
    subst ha
    cases l with
    | nil =>
      simp only [List.nil_append, List.headD_cons] at hh
      exact absurd hh hv
    | cons x t =>
      have hlne : (x :: t) ≠ [] := by simp
      have hchain := hw.2.1
      rw [List.chain'_append] at hchain
      have hadj : G.Adj ((x :: t).getLastD 0) a := by
        refine hchain.2.2 _ ?_ a (by simp)
        rw [getLastD_spec _ hlne]; rfl
      set u := (x :: t).getLastD 0 with hu
      have hsub : IsWalk G (x :: t) :=
        ⟨hlne, hchain.1, fun y hy => hw.2.2 y (List.mem_append_left _ hy)⟩
      have hh2 : (x :: t).headD 0 ∈ S := by
        rwa [headD_append_ne 0 hlne] at hh
      have h1 : ole (sdist G S u) (some (wlen G (x :: t))) :=
        sdist_le_wlen G hn S (x :: t) hsub hh2
      have hwl2 : wlen G ((x :: t) ++ [a]) = wlen G (x :: t) + G.w u a :=
        wlen_concat G t x a
      have h2 : ole (sdist G S a) (oadd (sdist G S u) (G.w u a)) :=
        sdist_adj_le G hn S hadj
      match h3 : sdist G S u with
      | none => rw [h3] at h1; exact absurd h1 (by simp [ole])
      | some e =>
        have he : e = d - G.w u a := by
          rw [h3, ole_some_iff] at h1
          rw [h3, h] at h2
          rw [show oadd (some e) (G.w u a) = some (e + G.w u a) from rfl,
            ole_some_iff] at h2
          rw [hwl2] at hwl
          have : wlen G (x :: t) = d - G.w u a := by linarith
          rw [this] at h1
          linarith
        have hfind : ∃ u' ∈ List.range G.n,
            (fun u' => decide (G.Adj u' a) &&
              decide (sdist G S u' = some (d - G.w u' a))) u' = true := by
          refine ⟨u, List.mem_range.mpr hadj.1, ?_⟩
          rw [Bool.and_eq_true, decide_eq_true_eq, decide_eq_true_eq]
          exact ⟨hadj, by rw [h3, he]⟩
        have := List.find?_isSome.mpr hfind
        match h4 : (List.range G.n).find?
            (fun u' => decide (G.Adj u' a) &&
              decide (sdist G S u' = some (d - G.w u' a))) with
        | none => rw [h4] at this; exact absurd this (by simp)
        | some u' =>
          refine ⟨u', ?_⟩
          unfold dijPred
          simp only [h, if_neg hv]
          exact h4

/-- The rank of a vertex: how many vertices are strictly closer to `S`. -/
def rankOf (G : SGraph α) (S : List ℕ) (v : ℕ) : ℕ :=
  (List.range G.n).countP (fun u => decide (olt (sdist G S u) (sdist G S v)))

theorem countP_mono_of_imp (p q : ℕ → Bool) :
    ∀ l : List ℕ, (∀ a ∈ l, p a = true → q a = true) →
      l.countP p ≤ l.countP q
  | [], _ => le_refl _
  | x :: l, h => by
    rw [List.countP_cons, List.countP_cons]
    have ih := countP_mono_of_imp p q l (fun a ha => h a (List.mem_cons_of_mem _ ha))
    by_cases hx : p x = true
    · have hq := h x (by simp) hx
      simp [hx, hq]
      omega
    · simp only [if_neg hx]
      split <;> omega

theorem countP_lt_of_witness (p q : ℕ → Bool) :
    ∀ l : List ℕ, (∀ a ∈ l, p a = true → q a = true) →
      ∀ u ∈ l, q u = true → p u = false → l.countP p < l.countP q
  | [], _, u, hu, _, _ => absurd hu (List.not_mem_nil u)
  | x :: l, h, u, hu, hq, hp => by
    rw [List.countP_cons, List.countP_cons]
    rcases List.mem_cons.mp hu with rfl | hu2
    · have ih := countP_mono_of_imp p q l (fun a ha => h a (List.mem_cons_of_mem _ ha))
      have hp2 : ¬ (p u = true) := by simp [hp]
      simp [hp2, hq]
      omega
    · have ih := countP_lt_of_witness p q l
        (fun a ha => h a (List.mem_cons_of_mem _ ha)) u hu2 hq hp
      by_cases hx : p x = true
      · have hq2 := h x (by simp) hx
        simp [hx, hq2]
        omega
      · simp only [if_neg hx]
        split <;> omega

theorem rank_lt_of_olt {G : SGraph α} {S : List ℕ} {u v : ℕ} (hu : u < G.n)
    (h : olt (sdist G S u) (sdist G S v)) : rankOf G S u < rankOf G S v := by
  refine countP_lt_of_witness _ _ (List.range G.n) ?_ u (List.mem_range.mpr hu) ?_ ?_
  · intro a _ ha
    rw [decide_eq_true_eq] at ha ⊢
    exact olt_trans ha h
  · rw [decide_eq_true_eq]
    exact h
  · rw [decide_eq_false_iff_not]
    exact not_olt_self _

theorem rank_le_n (G : SGraph α) (S : List ℕ) (v : ℕ) : rankOf G S v ≤ G.n := by
  have := List.countP_le_length
    (p := fun u => decide (olt (sdist G S u) (sdist G S v))) (l := List.range G.n)
  simpa using this

theorem srcAttrib_spec {G : SGraph α} {S : List ℕ} {lim : α} {v s : ℕ}
    (h : srcAttrib G S lim v = some s) :
    s ∈ S ∧ sdist G [s] v = sdist G S v := by
  unfold srcAttrib at h
  split at h
  · exact absurd h (by simp)
  · exact ⟨List.mem_of_find?_eq_some h,
      by have := List.find?_some h; rwa [decide_eq_true_eq] at this⟩

theorem srcAttrib_isSome (G : SGraph α) (hn : G.Nonneg) {S : List ℕ} {lim : α}
    {v : ℕ} {d : α} (h : limDist G S lim v = some d) :
    ∃ s, srcAttrib G S lim v = some s := by
  obtain ⟨hsd, _⟩ := limDist_eq_some_iff.mp h
  obtain ⟨s, hs, hseq⟩ := sdist_multi_attained G hn hsd
  have hfind : ∃ s' ∈ S,
      (fun s₀ => decide (sdist G [s₀] v = sdist G S v)) s' = true := by
    refine ⟨s, hs, ?_⟩
    rw [decide_eq_true_eq, hseq, hsd]
  have := List.find?_isSome.mpr hfind
  match h4 : S.find? (fun s₀ => decide (sdist G [s₀] v = sdist G S v)) with
  | none => rw [h4] at this; exact absurd this (by simp)
  | some s' =>
    refine ⟨s', ?_⟩
    unfold srcAttrib
    simp only [h]
    exact h4

/-!
## Numpy-style selection primitives

`nanargmax` models `np.nanargmax` (outer `none` = NaN, skipped; inner
`none` = `np.inf`; ties keep the first index; all-NaN input raises).
`argmaxList`/`argminList` model `np.argmax`/`np.argmin` with first-index
tie-breaking.
-/

inductive Err where
  | maskLen
  | unreachableValid
  | allNaN
  | targetUnreachable
  | badPred
  | fuelOut
  | emptyVisited
  | assertInf
  | negLimit
  | infArith
  | emptyArr
  | shapeErr
  | idxErr
  | badVerts
  | badEdges
  deriving DecidableEq

theorem not_olt_iff_ole {x y : Option α} : ¬ olt x y ↔ ole y x := by
  cases x <;> cases y <;> simp [ole, olt]

def nanargmax : List (Option (Option α)) → Option (ℕ × Option α)
  | [] => none
  | none :: xs => (nanargmax xs).map (fun r => (r.1 + 1, r.2))
  | some x :: xs =>
    match nanargmax xs with
    | none => some (0, x)
    | some (i, v) => if olt x v then some (i + 1, v) else some (0, x)

theorem nanargmax_cons_some_inv {x : Option α} {xs : List (Option (Option α))}
    {i : ℕ} {v : Option α} (h : nanargmax (some x :: xs) = some (i, v)) :
    (nanargmax xs = none ∧ i = 0 ∧ v = x) ∨
      ∃ j u, nanargmax xs = some (j, u) ∧
        ((olt x u ∧ i = j + 1 ∧ v = u) ∨ (¬ olt x u ∧ i = 0 ∧ v = x)) := by
  rw [nanargmax] at h
  revert h
  rcases nanargmax xs with _ | ⟨j, u⟩
  · intro h
    have h4 : (some (0, x) : Option (ℕ × Option α)) = some (i, v) := h
    obtain ⟨hi, hv⟩ := Prod.mk.inj (Option.some_inj.mp h4)
    exact Or.inl ⟨rfl, hi.symm, hv.symm⟩
  · intro h
    have h4 : (if olt x u then some (j + 1, u) else some (0, x)) = some (i, v) := h
    by_cases h3 : olt x u
    · rw [if_pos h3] at h4
      obtain ⟨hi, hv⟩ := Prod.mk.inj (Option.some_inj.mp h4)
      exact Or.inr ⟨j, u, rfl, Or.inl ⟨h3, hi.symm, hv.symm⟩⟩
    · rw [if_neg h3] at h4
      obtain ⟨hi, hv⟩ := Prod.mk.inj (Option.some_inj.mp h4)
      exact Or.inr ⟨j, u, rfl, Or.inr ⟨h3, hi.symm, hv.symm⟩⟩

theorem nanargmax_isSome :
    ∀ (xs : List (Option (Option α))) (k : ℕ) (y : Option α),
      xs[k]? = some (some y) → (nanargmax xs).isSome
  | [], k, y, hk => by simp at hk
  | none :: xs, k, y, hk => by
    cases k with
    | zero => simp at hk
    | succ k =>
      simp only [List.getElem?_cons_succ] at hk
      rw [nanargmax, Option.isSome_map']
      exact nanargmax_isSome xs k y hk
  | some x :: xs, k, y, hk => by
    rw [nanargmax]
    rcases h2 : nanargmax xs with _ | ⟨j, u⟩
    · simp
    · by_cases h3 : olt x u <;> simp [h3]

theorem nanargmax_get :
    ∀ (xs : List (Option (Option α))) (i : ℕ) (v : Option α),
      nanargmax xs = some (i, v) → xs[i]? = some (some v)
  | [], i, v, h => by simp [nanargmax] at h
  | none :: xs, i, v, h => by
    rw [nanargmax, Option.map_eq_some'] at h
    obtain ⟨⟨i2, v2⟩, h1, h2⟩ := h
    obtain ⟨hi, hv⟩ := Prod.mk.inj h2
    subst hi
    subst hv
    simpa using nanargmax_get xs i2 v2 h1
  | some x :: xs, i, v, h => by
    rcases nanargmax_cons_some_inv h with ⟨h2, hi, hv⟩ | ⟨j, u, h2, hcase⟩
    · subst hi; subst hv; simp
    · rcases hcase with ⟨hlt, hi, hv⟩ | ⟨hnlt, hi, hv⟩
      · subst hi; subst hv
        simpa using nanargmax_get xs j v h2
      · subst hi; subst hv; simp

theorem nanargmax_le :
    ∀ (xs : List (Option (Option α))) (i : ℕ) (v : Option α),
      nanargmax xs = some (i, v) →
      ∀ (k : ℕ) (y : Option α), xs[k]? = some (some y) → ole y v
  | [], i, v, h => by simp [nanargmax] at h
  | none :: xs, i, v, h => by
    rw [nanargmax, Option.map_eq_some'] at h
    obtain ⟨⟨i2, v2⟩, h1, h2⟩ := h
    obtain ⟨hi, hv⟩ := Prod.mk.inj h2
    subst hi
    subst hv
    intro k y hk
    cases k with
    | zero => simp at hk
    | succ k =>
      simp only [List.getElem?_cons_succ] at hk
      exact nanargmax_le xs i2 v2 h1 k y hk
  | some x :: xs, i, v, h => by
    intro k y hk
    rcases nanargmax_cons_some_inv h with ⟨h2, hi, hv⟩ | ⟨j, u, h2, hcase⟩
    · subst hi; subst hv
      cases k with
      | zero =>
        simp only [List.getElem?_cons_zero, Option.some_inj] at hk
        subst hk
        exact ole_refl _
      | succ k =>
        simp only [List.getElem?_cons_succ] at hk
        have := nanargmax_isSome xs k y hk
        rw [h2] at this
        simp at this
    · rcases hcase with ⟨hlt, hi, hv⟩ | ⟨hnlt, hi, hv⟩
      · subst hi; subst hv
        cases k with
        | zero =>
          simp only [List.getElem?_cons_zero, Option.some_inj] at hk
          subst hk
          exact ole_of_olt hlt
        | succ k =>
          simp only [List.getElem?_cons_succ] at hk
          exact nanargmax_le xs j v h2 k y hk
      · subst hi; subst hv
        cases k with
        | zero =>
          simp only [List.getElem?_cons_zero, Option.some_inj] at hk
          subst hk
          exact ole_refl _
        | succ k =>
          simp only [List.getElem?_cons_succ] at hk
          have h3 := nanargmax_le xs j u h2 k y hk
          rw [not_olt_iff_ole] at hnlt
          exact ole_trans h3 hnlt

theorem nanargmax_first :
    ∀ (xs : List (Option (Option α))) (i : ℕ) (v : Option α),
      nanargmax xs = some (i, v) →
      ∀ k < i, ∀ (y : Option α), xs[k]? = some (some y) → olt y v
  | [], i, v, h => by simp [nanargmax] at h
  | none :: xs, i, v, h => by
    rw [nanargmax, Option.map_eq_some'] at h
    obtain ⟨⟨i2, v2⟩, h1, h2⟩ := h
    obtain ⟨hi, hv⟩ := Prod.mk.inj h2
    subst hi
    subst hv
    intro k hk y hky
    cases k with
    | zero => simp at hky
    | succ k =>
      simp only [List.getElem?_cons_succ] at hky
      exact nanargmax_first xs i2 v2 h1 k (by omega) y hky
  | some x :: xs, i, v, h => by
    intro k hk y hky
    rcases nanargmax_cons_some_inv h with ⟨h2, hi, hv⟩ | ⟨j, u, h2, hcase⟩
    · subst hi; subst hv; omega
    · rcases hcase with ⟨hlt, hi, hv⟩ | ⟨hnlt, hi, hv⟩
      · subst hi; subst hv
        cases k with
        | zero =>
          simp only [List.getElem?_cons_zero, Option.some_inj] at hky
          subst hky
          exact hlt
        | succ k =>
          simp only [List.getElem?_cons_succ] at hky
          exact nanargmax_first xs j v h2 k (by omega) y hky
      · subst hi; subst hv; omega

/-- `np.argmax` over extended values (first maximal index). -/
def argmaxList : List (Option α) → Option (ℕ × Option α)
  | [] => none
  | x :: xs =>
    match argmaxList xs with
    | none => some (0, x)
    | some (i, v) => if olt x v then some (i + 1, v) else some (0, x)

theorem argmaxList_eq_none {xs : List (Option α)} (h : argmaxList xs = none) :
    xs = [] := by
  cases xs with
  | nil => rfl
  | cons x t =>
    rw [argmaxList] at h
    revert h
    rcases argmaxList t with _ | ⟨j, u⟩
    · intro h
      exact absurd (show (some (0, x) : Option (ℕ × Option α)) = none from h)
        (by simp)
    · intro h
      have h4 : (if olt x u then some (j + 1, u) else some (0, x)) = none := h
      split at h4 <;> simp at h4

theorem argmaxList_cons_some_inv {x : Option α} {xs : List (Option α)}
    {i : ℕ} {v : Option α} (h : argmaxList (x :: xs) = some (i, v)) :
    (argmaxList xs = none ∧ i = 0 ∧ v = x) ∨
      ∃ j u, argmaxList xs = some (j, u) ∧
        ((olt x u ∧ i = j + 1 ∧ v = u) ∨ (¬ olt x u ∧ i = 0 ∧ v = x)) := by
  rw [argmaxList] at h
  revert h
  rcases argmaxList xs with _ | ⟨j, u⟩
  · intro h
    have h4 : (some (0, x) : Option (ℕ × Option α)) = some (i, v) := h
    obtain ⟨hi, hv⟩ := Prod.mk.inj (Option.some_inj.mp h4)
    exact Or.inl ⟨rfl, hi.symm, hv.symm⟩
  · intro h
    have h4 : (if olt x u then some (j + 1, u) else some (0, x)) = some (i, v) := h
    by_cases h3 : olt x u
    · rw [if_pos h3] at h4
      obtain ⟨hi, hv⟩ := Prod.mk.inj (Option.some_inj.mp h4)
      exact Or.inr ⟨j, u, rfl, Or.inl ⟨h3, hi.symm, hv.symm⟩⟩
    · rw [if_neg h3] at h4
      obtain ⟨hi, hv⟩ := Prod.mk.inj (Option.some_inj.mp h4)
      exact Or.inr ⟨j, u, rfl, Or.inr ⟨h3, hi.symm, hv.symm⟩⟩

theorem argmaxList_get :
    ∀ (xs : List (Option α)) (i : ℕ) (v : Option α),
      argmaxList xs = some (i, v) → xs[i]? = some v
  | [], i, v, h => by simp [argmaxList] at h
  | x :: xs, i, v, h => by
    rcases argmaxList_cons_some_inv h with ⟨h2, hi, hv⟩ | ⟨j, u, h2, hcase⟩
    · subst hi; subst hv; simp
    · rcases hcase with ⟨hlt, hi, hv⟩ | ⟨hnlt, hi, hv⟩
      · subst hi; subst hv
        simpa using argmaxList_get xs j v h2
      · subst hi; subst hv; simp

theorem argmaxList_le :
    ∀ (xs : List (Option α)) (i : ℕ) (v : Option α),
      argmaxList xs = some (i, v) →
      ∀ (k : ℕ) (y : Option α), xs[k]? = some y → ole y v
  | [], i, v, h => by simp [argmaxList] at h
  | x :: xs, i, v, h => by
    intro k y hk
    rcases argmaxList_cons_some_inv h with ⟨h2, hi, hv⟩ | ⟨j, u, h2, hcase⟩
    · subst hi; subst hv
      cases k with
      | zero =>
        simp only [List.getElem?_cons_zero, Option.some_inj] at hk
        subst hk
        exact ole_refl _
      | succ k =>
        simp only [List.getElem?_cons_succ] at hk
        rw [argmaxList_eq_none h2] at hk
        simp at hk
    · rcases hcase with ⟨hlt, hi, hv⟩ | ⟨hnlt, hi, hv⟩
      · subst hi; subst hv
        cases k with
        | zero =>
          simp only [List.getElem?_cons_zero, Option.some_inj] at hk
          subst hk
          exact ole_of_olt hlt
        | succ k =>
          simp only [List.getElem?_cons_succ] at hk
          exact argmaxList_le xs j v h2 k y hk
      · subst hi; subst hv
        cases k with
        | zero =>
          simp only [List.getElem?_cons_zero, Option.some_inj] at hk
          subst hk
          exact ole_refl _
        | succ k =>
          simp only [List.getElem?_cons_succ] at hk
          have h3 := argmaxList_le xs j u h2 k y hk
          rw [not_olt_iff_ole] at hnlt
          exact ole_trans h3 hnlt

theorem argmaxList_isSome (xs : List (Option α)) (h : xs ≠ []) :
    ∃ i v, argmaxList xs = some (i, v) := by
  cases xs with
  | nil => exact absurd rfl h
  | cons x t =>
    rw [argmaxList]
    rcases argmaxList t with _ | ⟨j, u⟩
    · exact ⟨0, x, rfl⟩
    · by_cases h3 : olt x u
      · exact ⟨j + 1, u, if_pos h3⟩
      · exact ⟨0, x, if_neg h3⟩

/-- `np.argmin` of `ds` over a vertex list (first minimal, returning the vertex). -/
def argminList (ds : ℕ → Option α) : List ℕ → Option ℕ
  | [] => none
  | v :: vs =>
    match argminList ds vs with
    | none => some v
    | some u => if olt (ds u) (ds v) then some u else some v

theorem argminList_eq_none {ds : ℕ → Option α} {l : List ℕ}
    (h : argminList ds l = none) : l = [] := by
  cases l with
  | nil => rfl
  | cons v vs =>
    rw [argminList] at h
    revert h
    rcases argminList ds vs with _ | ⟨b⟩
    · intro h
      exact absurd (show (some v : Option ℕ) = none from h) (by simp)
    · intro h
      have h4 : (if olt (ds b) (ds v) then some b else some v) = none := h
      split at h4 <;> simp at h4

theorem argminList_cons_inv {ds : ℕ → Option α} {v : ℕ} {vs : List ℕ} {u : ℕ}
    (h : argminList ds (v :: vs) = some u) :
    (argminList ds vs = none ∧ u = v) ∨
      ∃ b, argminList ds vs = some b ∧
        ((olt (ds b) (ds v) ∧ u = b) ∨ (¬ olt (ds b) (ds v) ∧ u = v)) := by
  rw [argminList] at h
  revert h
  rcases argminList ds vs with _ | ⟨b⟩
  · intro h
    have h4 : (some v : Option ℕ) = some u := h
    exact Or.inl ⟨rfl, (Option.some_inj.mp h4).symm⟩
  · intro h
    have h4 : (if olt (ds b) (ds v) then some b else some v) = some u := h
    by_cases h3 : olt (ds b) (ds v)
    · rw [if_pos h3] at h4
      exact Or.inr ⟨b, rfl, Or.inl ⟨h3, (Option.some_inj.mp h4).symm⟩⟩
    · rw [if_neg h3] at h4
      exact Or.inr ⟨b, rfl, Or.inr ⟨h3, (Option.some_inj.mp h4).symm⟩⟩

theorem argminList_mem {ds : ℕ → Option α} :
    ∀ {l : List ℕ} {u : ℕ}, argminList ds l = some u → u ∈ l := by
  intro l
  induction l with
  | nil => intro u h; simp [argminList] at h
  | cons v vs ih =>
    intro u h
    rcases argminList_cons_inv h with ⟨_, rfl⟩ | ⟨b, h2, hcase⟩
    · simp
    · rcases hcase with ⟨_, rfl⟩ | ⟨_, rfl⟩
      · exact List.mem_cons_of_mem _ (ih h2)
      · simp

theorem argminList_le {ds : ℕ → Option α} :
    ∀ {l : List ℕ} {b : ℕ}, argminList ds l = some b →
      ∀ u ∈ l, ole (ds b) (ds u) := by
  intro l
  induction l with
  | nil => intro b h; simp [argminList] at h
  | cons v vs ih =>
    intro b h u hu
    rcases argminList_cons_inv h with ⟨h2, rfl⟩ | ⟨b2, h2, hcase⟩
    · rcases List.mem_cons.mp hu with rfl | hu2
      · exact ole_refl _
      · rw [argminList_eq_none h2] at hu2
        simp at hu2
    · rcases hcase with ⟨hlt, rfl⟩ | ⟨hnlt, rfl⟩
      · rcases List.mem_cons.mp hu with rfl | hu2
        · exact ole_of_olt hlt
        · exact ih h2 u hu2
      · rcases List.mem_cons.mp hu with rfl | hu2
        · exact ole_refl _
        · rw [not_olt_iff_ole] at hnlt
          exact ole_trans hnlt (ih h2 u hu2)

theorem argminList_isSome (ds : ℕ → Option α) (l : List ℕ) (h : l ≠ []) :
    ∃ b, argminList ds l = some b := by
  cases l with
  | nil => exact absurd rfl h
  | cons v vs =>
    rw [argminList]
    rcases argminList ds vs with _ | ⟨u⟩
    · exact ⟨v, rfl⟩
    · by_cases h3 : olt (ds u) (ds v)
      · exact ⟨u, if_pos h3⟩
      · exact ⟨v, if_neg h3⟩

/-!
## Predecessor walks

`get_path` models `utils.get_path(root, target, pred)`: start at the target
(`branch` here), follow the predecessor array until reaching `root` (the
search source `t` here), then reverse — the model accumulates in reverse
directly.  `bbWalk` models the `while max_branch not in visited_nodes`
loop.  Both are fueled; under the preconditions the fuel `n + 1` suffices.
-/

def get_path_go (t : ℕ) (pf : ℕ → Option ℕ) : ℕ → ℕ → List ℕ → Except Err (List ℕ)
  | 0, _, _ => .error .fuelOut
  | fuel+1, p, acc =>
    if p = t then .ok (p :: acc)
    else
      match pf p with
      | some q => get_path_go t pf fuel q (p :: acc)
      | none => .error .badPred

/-- `utils.get_path` on a predecessor array, with fuel `n + 1`. -/
def get_path (n t : ℕ) (pf : ℕ → Option ℕ) (branch : ℕ) : Except Err (List ℕ) :=
  get_path_go t pf (n + 1) branch []

theorem get_path_go_sound (t : ℕ) (pf : ℕ → Option ℕ) :
    ∀ (fuel p : ℕ) (acc l : List ℕ), get_path_go t pf fuel p acc = .ok l →
      ∃ c, c ≠ [] ∧ c.headD 0 = t ∧ c.getLastD 0 = p ∧
        List.Chain' (fun a b => pf b = some a) c ∧ l = c ++ acc
  | 0, p, acc, l, h => by simp [get_path_go] at h
  | fuel+1, p, acc, l, h => by
    rw [get_path_go] at h
    split at h
    · rename_i hpt
      subst hpt
      refine ⟨[p], by simp, rfl, by simp, List.chain'_singleton p, ?_⟩
      simpa using (Except.ok.inj h).symm
    · rename_i hpt
      match h2 : pf p with
      | some q =>
        rw [h2] at h
        obtain ⟨c, hne, hh, hl, hch, hacc⟩ :=
          get_path_go_sound t pf fuel q (p :: acc) l h
        refine ⟨c ++ [p], by simp, ?_, getLastD_concat c p 0, ?_, ?_⟩
        · rw [headD_append_ne 0 hne]; exact hh
        · rw [List.chain'_append]
          refine ⟨hch, List.chain'_singleton p, ?_⟩
          intro a ha b hb
          rw [getLastD_spec c hne, Option.mem_def, Option.some_inj] at ha
          simp only [List.head?_cons, Option.mem_def, Option.some_inj] at hb
          subst hb
          rw [← ha, hl]
          exact h2
        · rw [hacc]; simp
      | none => rw [h2] at h; exact absurd h (by simp)

theorem get_path_go_ok (G : SGraph α) (hn : G.Nonneg) (t : ℕ) (lim : α) :
    ∀ (fuel p : ℕ) (acc : List ℕ), limDist G [t] lim p ≠ none →
      rankOf G [t] p < fuel →
      ∃ l, get_path_go t (limPred G [t] lim) fuel p acc = .ok l
  | 0, p, acc, hld, hrank => by omega
  | fuel+1, p, acc, hld, hrank => by
    rw [get_path_go]
    by_cases hpt : p = t
    · rw [if_pos hpt]
      exact ⟨_, rfl⟩
    · rw [if_neg hpt]
      obtain ⟨d, hsd, hdlim⟩ := limDist_ne_none hld
      obtain ⟨u, hu⟩ := dijPred_isSome G hn hsd (by simpa using hpt)
      have hlp : limPred G [t] lim p = some u := by
        unfold limPred
        match h3 : limDist G [t] lim p with
        | none => exact absurd h3 hld
        | some e => exact hu
      rw [hlp]
      obtain ⟨hadj, _, d2, hsd2, hsu⟩ := dijPred_spec hu
      rw [hsd] at hsd2
      cases Option.some_inj.mp hsd2
      have hwpos := hadj.2.2
      have hldu : limDist G [t] lim u ≠ none := by
        rw [limDist_of_sdist hsu (by linarith)]
        simp
      have hranku : rankOf G [t] u < fuel := by
        have h5 : olt (sdist G [t] u) (sdist G [t] p) := dijPred_strict hu
        have := rank_lt_of_olt hadj.1 h5
        omega
      exact get_path_go_ok G hn t lim fuel u (p :: acc) hldu hranku

theorem get_path_ok (G : SGraph α) (hn : G.Nonneg) (t : ℕ) (lim : α)
    (branch : ℕ) (hld : limDist G [t] lim branch ≠ none) :
    ∃ l, get_path G.n t (limPred G [t] lim) branch = .ok l := by
  refine get_path_go_ok G hn t lim (G.n + 1) branch [] hld ?_
  have := rank_le_n G [t] branch
  omega

theorem get_path_sound {n t : ℕ} {pf : ℕ → Option ℕ} {branch : ℕ} {l : List ℕ}
    (h : get_path n t pf branch = .ok l) :
    l ≠ [] ∧ l.headD 0 = t ∧ l.getLastD 0 = branch ∧
      List.Chain' (fun a b => pf b = some a) l := by
  obtain ⟨c, hne, hh, hl, hch, hacc⟩ := get_path_go_sound t pf (n + 1) branch [] l h
  rw [List.append_nil] at hacc
  subst hacc
  exact ⟨hne, hh, hl, hch⟩

theorem limPred_some_elim {G : SGraph α} {S : List ℕ} {lim : α} {a b : ℕ}
    (h : limPred G S lim b = some a) :
    dijPred G S b = some a ∧ limDist G S lim b ≠ none := by
  unfold limPred at h
  split at h
  · exact absurd h (by simp)
  · rename_i d hd
    exact ⟨h, by rw [hd]; simp⟩

/-- Along a limited-predecessor chain, `sdist` from the source strictly
increases. -/
theorem predChain_strict {G : SGraph α} {S : List ℕ} {lim : α} {c : List ℕ}
    (h : List.Chain' (fun a b => limPred G S lim b = some a) c) :
    List.Chain' (fun a b => olt (sdist G S a) (sdist G S b)) c := by
  refine List.Chain'.imp ?_ h
  intro a b hab
  exact dijPred_strict (limPred_some_elim hab).1

theorem predChain_adj {G : SGraph α} {S : List ℕ} {lim : α} {c : List ℕ}
    (h : List.Chain' (fun a b => limPred G S lim b = some a) c) :
    List.Chain' G.Adj c := by
  refine List.Chain'.imp ?_ h
  intro a b hab
  exact (dijPred_spec (limPred_some_elim hab).1).1

theorem chain'_strict_pairwise (f : ℕ → Option α) (c : List ℕ)
    (h : List.Chain' (fun a b => olt (f a) (f b)) c) :
    c.Pairwise (fun a b => olt (f a) (f b)) := by
  haveI : IsTrans ℕ (fun a b => olt (f a) (f b)) := ⟨fun _ _ _ => olt_trans⟩
  exact List.chain'_iff_pairwise.mp h

theorem pairwise_strict_nodup (f : ℕ → Option α) (c : List ℕ)
    (h : c.Pairwise (fun a b => olt (f a) (f b))) : c.Nodup := by
  refine h.imp ?_
  intro a b hab
  intro hba
  subst hba
  exact not_olt_self _ hab

theorem pairwise_dropLast_last {R : ℕ → ℕ → Prop} {c : List ℕ}
    (h : c.Pairwise R) (hne : c ≠ []) :
    ∀ a ∈ c.dropLast, R a (c.getLastD 0) := by
  intro a ha
  have hsplit : c.dropLast ++ [c.getLast hne] = c := List.dropLast_append_getLast hne
  have h2 : (c.dropLast ++ [c.getLast hne]).Pairwise R := by rw [hsplit]; exact h
  rw [List.pairwise_append] at h2
  have h3 := h2.2.2 a ha (c.getLast hne) (by simp)
  have h4 : c.getLastD 0 = c.getLast hne := by
    rw [List.getLastD_eq_getLast?, List.getLast?_eq_getLast c hne]
    rfl
  rw [h4]
  exact h3

/-- The `while max_branch not in visited_nodes` loop (lines 137-139). -/
def bbWalk (pf : ℕ → Option ℕ) (visited : List ℕ) : ℕ → ℕ → Except Err ℕ
  | 0, _ => .error .fuelOut
  | fuel+1, v =>
    if v ∈ visited then .ok v
    else
      match pf v with
      | some u => bbWalk pf visited fuel u
      | none => .error .badPred

theorem bbWalk_mem {pf : ℕ → Option ℕ} {visited : List ℕ} :
    ∀ {fuel v bb : ℕ}, bbWalk pf visited fuel v = .ok bb → bb ∈ visited := by
  intro fuel
  induction fuel with
  | zero => intro v bb h; simp [bbWalk] at h
  | succ fuel ih =>
    intro v bb h
    rw [bbWalk] at h
    split at h
    · rw [← Except.ok.inj h]
      assumption
    · match h2 : pf v with
      | some u => rw [h2] at h; exact ih h
      | none => rw [h2] at h; exact absurd h (by simp)

/-- Soundness of the branch-bound walk: the reached visited vertex `bb` lies
below `v` in the shortest-path tree, and the tree path from `v` down to `bb`
witnesses `sdist [v] bb ≤ root_ds v - root_ds bb`. -/
theorem bbWalk_bound (G : SGraph α) (hn : G.Nonneg) (hs : G.Symm) (root : ℕ)
    (visited : List ℕ) :
    ∀ (fuel v bb : ℕ) (dv : α),
      bbWalk (dijPred G [root]) visited fuel v = .ok bb →
      sdist G [root] v = some dv →
      ∃ db, sdist G [root] bb = some db ∧ db ≤ dv ∧
        ole (sdist G [v] bb) (some (dv - db))
  | 0, v, bb, dv, h, hv => by simp [bbWalk] at h
  | fuel+1, v, bb, dv, h, hv => by
    rw [bbWalk] at h
    split at h
    · cases Except.ok.inj h
      refine ⟨dv, hv, le_refl _, ?_⟩
      have hvn : v < G.n := sdist_lt_n hv
      rw [sdist_source G hn (by simp) hvn]
      simpa [ole_some_iff] using le_refl (0 : α)
    · match h2 : dijPred G [root] v with
      | some u =>
        rw [h2] at h
        obtain ⟨hadj, _, d2, hsd2, hsu⟩ := dijPred_spec h2
        rw [hv] at hsd2
        cases Option.some_inj.mp hsd2
        obtain ⟨db, hbb, hdb, hle⟩ :=
          bbWalk_bound G hn hs root visited fuel u bb (dv - G.w u v) h hsu
        have hwpos := hadj.2.2
        refine ⟨db, hbb, by linarith, ?_⟩
        have hstep : ole (sdist G [v] bb) (oadd (sdist G [u] bb) (G.w v u)) :=
          sdist_cons_src_le G hn bb (hadj.symm hs)
        have hmono : ole (oadd (sdist G [u] bb) (G.w v u))
            (oadd (some (dv - G.w u v - db)) (G.w v u)) := oadd_mono _ hle
        have hwsym : G.w v u = G.w u v := hs v hadj.2.1 u hadj.1
        have heq : oadd (some (dv - G.w u v - db)) (G.w v u) = some (dv - db) := by
          rw [show oadd (some (dv - G.w u v - db)) (G.w v u) =
            some (dv - G.w u v - db + G.w v u) from rfl, hwsym]
          ring_nf
        rw [heq] at hmono
        exact ole_trans hstep hmono
      | none => rw [h2] at h; exact absurd h (by simp)

theorem bbWalk_ok (G : SGraph α) (hn : G.Nonneg) {root : ℕ} {visited : List ℕ}
    (hroot : root ∈ visited) :
    ∀ (fuel v : ℕ) (dv : α), sdist G [root] v = some dv →
      rankOf G [root] v < fuel →
      ∃ bb, bbWalk (dijPred G [root]) visited fuel v = .ok bb
  | 0, v, dv, hv, hrank => by omega
  | fuel+1, v, dv, hv, hrank => by
    rw [bbWalk]
    by_cases hvv : v ∈ visited
    · rw [if_pos hvv]
      exact ⟨v, rfl⟩
    · rw [if_neg hvv]
      have hvr : v ∉ ([root] : List ℕ) := by
        simp only [List.mem_singleton]
        intro hvr
        subst hvr
        exact hvv hroot
      obtain ⟨u, hu⟩ := dijPred_isSome G hn hv hvr
      rw [hu]
      obtain ⟨hadj, _, d2, hsd2, hsu⟩ := dijPred_spec hu
      rw [hv] at hsd2
      cases Option.some_inj.mp hsd2
      have hranku : rankOf G [root] u < fuel := by
        have := rank_lt_of_olt hadj.1 (dijPred_strict hu)
        omega
      exact bbWalk_ok G hn hroot fuel u (dv - G.w u v) hsu hranku

/-!
## The TEASAR component loop (`graph_teasar_component`, lines 71-220)

The loop state: the mutable `valid` mask, the `visited_nodes` list, the
accumulated `paths`/`path_lengths`, and the optional vertex-to-skeleton map
(`mesh_to_skeleton_dist` / `mesh_to_skeleton_map`), which the model always
tracks (in the source it is computed only under `return_map=True`, without
affecting anything else).  The step function `stepE` is one iteration of the
`while np.sum(valid) > 0` loop; `teasar_run` is the fueled loop; errors
mirror the source's `ValueError`s, the `assert`, and scipy's rejection of a
negative `limit`.
-/

structure TState (α : Type) where
  valid : List Bool
  visited : List ℕ
  paths : List (List ℕ)
  plens : List α
  mdist : ℕ → Option α
  mmap : ℕ → Option ℕ

/-- One entry of `root_ds * valid` (line 124): `inf*False = NaN` (outer
`none`), `inf*True = inf`, `d*False = 0`, `d*True = d`. -/
def productVal : Option α → Bool → Option (Option α)
  | none, false => none
  | none, true => some none
  | some _, false => some (some 0)
  | some d, true => some (some d)

def products (G : SGraph α) (rds : ℕ → Option α) (valid : List Bool) :
    List (Option (Option α)) :=
  (List.range G.n).map (fun v => productVal (rds v) (valid.getD v false))

theorem products_get (G : SGraph α) (rds : ℕ → Option α) (valid : List Bool)
    {v : ℕ} (hv : v < G.n) :
    (products G rds valid)[v]? = some (productVal (rds v) (valid.getD v false)) := by
  unfold products
  rw [List.getElem?_map, List.getElem?_range hv]
  rfl

/-- Target selection (line 124): `np.nanargmax(root_ds * valid)`. -/
def selectTarget (G : SGraph α) (rds : ℕ → Option α) (valid : List Bool) :
    Option (ℕ × Option α) :=
  nanargmax (products G rds valid)

def countTrue (l : List Bool) : ℕ := l.count true

/-- One iteration of the `while np.sum(valid) > 0` loop (lines 119-210). -/
def stepE (G : SGraph α) (rds : ℕ → Option α) (rpred : ℕ → Option ℕ) (invd : α)
    (s : TState α) : Except Err (TState α) :=
  match selectTarget G rds s.valid with
  | none => .error .allNaN
  | some (target, _) =>
    match rds target with
    | none => .error .targetUnreachable
    | some dt =>
      match bbWalk rpred s.visited (G.n + 1) target with
      | .error e => .error e
      | .ok bb =>
        match rds bb with
        | none => .error .infArith
        | some db =>
          if dt - db < 0 then .error .negLimit
          else
            match argminList (fun v => limDist G [target] (dt - db) v)
                s.visited with
            | none => .error .emptyVisited
            | some branch =>
              match get_path G.n target (limPred G [target] (dt - db)) branch with
              | .error e => .error e
              | .ok path =>
                match limDist G [target] (dt - db) branch with
                | none => .error .assertInf
                | some plen =>
                  if invd < 0 then .error .negLimit
                  else
                    let dm := fun v => limDist G path invd v
                    .ok { valid := (List.range G.n).map
                            (fun v => if dm v = none then s.valid.getD v false
                              else false),
                          visited := s.visited ++ path.dropLast,
                          paths := s.paths ++ [path],
                          plens := s.plens ++ [plen],
                          mdist := fun v =>
                            if olt (dm v) (s.mdist v) then dm v else s.mdist v,
                          mmap := fun v =>
                            if olt (dm v) (s.mdist v) then srcAttrib G path invd v
                            else s.mmap v }

/-- Inversion of one successful loop iteration: the intermediate values of
lines 124-210 and the equations defining the successor state. -/
theorem step_spec {G : SGraph α} {rds : ℕ → Option α} {rpred : ℕ → Option ℕ}
    {invd : α} {s s2 : TState α}
    (h : stepE G rds rpred invd s = .ok s2) :
    ∃ target tval dt bb db branch path plen,
      selectTarget G rds s.valid = some (target, tval) ∧
      rds target = some dt ∧
      bbWalk rpred s.visited (G.n + 1) target = .ok bb ∧
      rds bb = some db ∧
      ¬ dt - db < 0 ∧
      argminList (fun v => limDist G [target] (dt - db) v) s.visited =
        some branch ∧
      get_path G.n target (limPred G [target] (dt - db)) branch = .ok path ∧
      limDist G [target] (dt - db) branch = some plen ∧
      ¬ invd < 0 ∧
      s2.valid = (List.range G.n).map
        (fun v => if limDist G path invd v = none then s.valid.getD v false
          else false) ∧
      s2.visited = s.visited ++ path.dropLast ∧
      s2.paths = s.paths ++ [path] ∧
      s2.plens = s.plens ++ [plen] ∧
      s2.mdist = (fun v =>
        if olt (limDist G path invd v) (s.mdist v) then limDist G path invd v
        else s.mdist v) ∧
      s2.mmap = (fun v =>
        if olt (limDist G path invd v) (s.mdist v) then srcAttrib G path invd v
        else s.mmap v) := by
  unfold stepE at h
  split at h
  · exact absurd h (by simp)
  · rename_i r target tval heq1
    split at h
    · exact absurd h (by simp)
    · rename_i dt heq2
      split at h
      · exact absurd h (by simp)
      · rename_i bb heq3
        split at h
        · exact absurd h (by simp)
        · rename_i db heq4
          split at h
          · exact absurd h (by simp)
          · rename_i hlim
            split at h
            · exact absurd h (by simp)
            · rename_i branch heq5
              split at h
              · exact absurd h (by simp)
              · rename_i path heq6
                split at h
                · exact absurd h (by simp)
                · rename_i plen heq7
                  split at h
                  · exact absurd h (by simp)
                  · rename_i hinvd
                    refine ⟨target, tval, dt, bb, db, branch, path, plen,
                      heq1, heq2, heq3, heq4, hlim, heq5, heq6, heq7, hinvd,
                      ?_, ?_, ?_, ?_, ?_, ?_⟩ <;>
                      rw [← Except.ok.inj h]

/-- The fueled main loop. -/
def teasar_run (G : SGraph α) (rds : ℕ → Option α) (rpred : ℕ → Option ℕ)
    (invd : α) : ℕ → TState α → Except Err (TState α)
  | 0, _ => .error .fuelOut
  | fuel+1, s =>
    if countTrue s.valid = 0 then .ok s
    else
      match stepE G rds rpred invd s with
      | .ok s2 => teasar_run G rds rpred invd fuel s2
      | .error e => .error e

/-- The full dijkstra arrays from a given root. -/
def dijkstraDs (G : SGraph α) (root : ℕ) : ℕ → Option α :=
  fun v => sdist G [root] v

def dijkstraPredArr (G : SGraph α) (root : ℕ) : ℕ → Option ℕ :=
  fun v => dijPred G [root] v

structure InitOut (α : Type) where
  rds : ℕ → Option α
  rpred : ℕ → Option ℕ
  valid : List Bool

/-- The pre-loop part of `graph_teasar_component` (lines 71-99) for calls
with `root` supplied: compute `root_ds`/`root_pred` when absent (one
dijkstra call, counted in the first component of the result), build or
length-check the mask, and check reachability of all valid vertices.  The
error order is the source's: the `root_ds` dijkstra runs before the mask
length check. -/
def component_init (G : SGraph α) (root : ℕ) (valid? : Option (List Bool))
    (rds? : Option (ℕ → Option α)) (rpred? : Option (ℕ → Option ℕ)) :
    ℕ × Except Err (InitOut α) :=
  let rds := match rds? with
    | some ds => ds
    | none => dijkstraDs G root
  let rpred := match rds? with
    | some _ => (match rpred? with | some p => p | none => fun _ => none)
    | none => dijkstraPredArr G root
  let calls : ℕ := match rds? with
    | some _ => 0
    | none => 1
  match valid? with
  | some vv =>
    if vv.length ≠ G.n then (calls, .error .maskLen)
    else if (List.range G.n).any
        (fun v => decide (rds v = none) && vv.getD v false) then
      (calls, .error .unreachableValid)
    else (calls, .ok ⟨rds, rpred, vv⟩)
  | none =>
    let vv := (List.range G.n).map (fun v => decide (v ≠ root))
    if (List.range G.n).any
        (fun v => decide (rds v = none) && vv.getD v false) then
      (calls, .error .unreachableValid)
    else (calls, .ok ⟨rds, rpred, vv⟩)

def init_state (io : InitOut α) (root : ℕ) : TState α :=
  ⟨io.valid, [root], [], [], fun _ => none, fun _ => none⟩

/-- `graph_teasar_component` with an explicit root: initialization followed by
the invalidation-covering loop, with fuel `countTrue valid + 1` (sufficient
whenever the loop makes progress).  The returned state carries the outputs
`paths`, `path_lengths` (`plens`), and the vertex-to-skeleton map. -/
def graph_teasar_component (G : SGraph α) (root : ℕ)
    (valid? : Option (List Bool)) (rds? : Option (ℕ → Option α))
    (rpred? : Option (ℕ → Option ℕ)) (invd : α) : Except Err (TState α) :=
  match (component_init G root valid? rds? rpred?).2 with
  | .error e => .error e
  | .ok io =>
    teasar_run G io.rds io.rpred invd (countTrue io.valid + 1)
      (init_state io root)

/-- The state after `k` completed loop iterations (`none` once the loop guard
fails or an iteration raises). -/
def iterG (G : SGraph α) (rds : ℕ → Option α) (rpred : ℕ → Option ℕ) (invd : α)
    (s : TState α) : ℕ → Option (TState α)
  | 0 => some s
  | k+1 =>
    match iterG G rds rpred invd s k with
    | some s2 =>
      if countTrue s2.valid = 0 then none
      else (stepE G rds rpred invd s2).toOption
    | none => none

/-- The loop state of `graph_teasar_component G root (some valid) none none invd`
after `k` iterations. -/
def reach_state (G : SGraph α) (root : ℕ) (valid0 : List Bool) (invd : α)
    (k : ℕ) : Option (TState α) :=
  match (component_init G root (some valid0) none none).2 with
  | .ok io => iterG G io.rds io.rpred invd (init_state io root) k
  | .error _ => none

/-!
## `find_root.find_far_points_graph`
-/

structure FfpOut (α : Type) where
  best : ℕ
  far : ℕ
  pred : Option (ℕ → Option ℕ)
  maxd : Option α
  dist : Option (ℕ → Option α)
  calls : ℕ

/-- The `while 1` loop of `find_far_points_graph` (lines 75-90).  Each pass
runs one full dijkstra from `cur`, masks invalid entries to `-1`
(`dist_to_current[~valid] = -1`), takes `np.argmax`, and continues while the
maximum strictly improves.  `calls` counts dijkstra invocations. -/
def ffp_go (G : SGraph α) (valid : List Bool) :
    ℕ → ℕ → ℕ → Option α → Option (ℕ → Option ℕ) → Option (ℕ → Option α) →
      ℕ → Except Err (FfpOut α)
  | 0, _, _, _, _, _, _ => .error .fuelOut
  | fuel+1, cur, best, maxd, pr, di, calls =>
    if valid.length ≠ G.n then .error .shapeErr
    else
      let dvec := fun v =>
        if valid.getD v false then sdist G [cur] v else some (-1)
      match argmaxList ((List.range G.n).map dvec) with
      | none => .error .emptyArr
      | some (far, cd) =>
        if olt maxd cd then
          ffp_go G valid fuel far cur cd (some (dijkstraPredArr G cur))
            (some dvec) (calls + 1)
        else .ok ⟨best, cur, pr, maxd, di, calls + 1⟩

/-- `find_far_points_graph` (lines 34-92). -/
def find_far_points_graph (G : SGraph α) (valid? : Option (List Bool)) :
    Except Err (FfpOut α) :=
  match valid? with
  | none =>
    let vv := List.replicate G.n true
    ffp_go G vv (G.n + 2) 0 0 (some 0) none none 0
  | some vv =>
    match vv.findIdx? (fun b => b) with
    | none => .error .idxErr
    | some s => ffp_go G vv (G.n + 2) s s (some 0) none none 0

/-!
## `utils.create_spatial_csgraph`

`numpy` arrays are modelled by a shape plus flat row-major data; only the
parts the function touches (ndim, the two shape entries, 2-D rows) are
used.  The Euclidean norm `np.linalg.norm` is an external oracle passed as
the `norm` parameter.
-/

structure NDArray (β : Type) where
  shape : List ℕ
  data : List β

def NDArray.nrows (a : NDArray β) : ℕ := a.shape.getD 0 0

def NDArray.ncols (a : NDArray β) : ℕ := a.shape.getD 1 0

def NDArray.row (a : NDArray β) (i : ℕ) : List β :=
  (a.data.drop (i * a.ncols)).take a.ncols

/-- `utils.create_spatial_csgraph` (lines 98-150): shape validation,
silent self-loop filtering (`edges[edges[:, 0] != edges[:, 1]]`), weight
computation, symmetrization for the undirected case, and the
duplicate-summing `csr_matrix` construction. -/
def create_spatial_csgraph (norm : List α → α) (vertices : NDArray α)
    (edges : NDArray ℕ) (euclidean_weight : Bool) (directed : Bool) :
    Except Err (SGraph α) :=
  if vertices.shape.length ≠ 2 ∨ vertices.shape.getD 1 0 < 1 then
    .error .badVerts
  else if edges.shape.length ≠ 2 ∨ edges.shape.getD 1 0 ≠ 2 then
    .error .badEdges
  else
    let epairs := (List.range edges.nrows).map
      (fun i => ((edges.row i).getD 0 0, (edges.row i).getD 1 0))
    let filtered := epairs.filter (fun e => e.1 ≠ e.2)
    let wt : ℕ × ℕ → α := fun e =>
      if euclidean_weight then
        norm (List.zipWith (fun a b => a - b) (vertices.row e.1)
          (vertices.row e.2))
      else 1
    .ok { n := vertices.nrows,
          w := fun u v =>
            (filtered.map (fun e =>
              (if e.1 = u ∧ e.2 = v then wt e else 0) +
              (if directed = false ∧ e.1 = v ∧ e.2 = u then wt e else 0))).sum }

/-!
## Loop invariant and per-iteration lemmas
-/

theorem omin_eq_left {x y : Option α} (h : ole x y) : omin x y = x := by
  cases x with
  | none =>
    cases y with
    | none => rfl
    | some b => exact absurd h (by simp [ole])
  | some a =>
    cases y with
    | none => rfl
    | some b => exact congrArg some (min_eq_left h)

theorem omin_eq_right {x y : Option α} (h : ole y x) : omin x y = y := by
  cases x with
  | none =>
    cases y with
    | none => rfl
    | some b => rfl
  | some a =>
    cases y with
    | none => exact absurd h (by simp [ole])
    | some b => exact congrArg some (min_eq_right h)

theorem headD_mem {l : List ℕ} (h : l ≠ []) : l.headD 0 ∈ l := by
  cases l with
  | nil => exact absurd rfl h
  | cons x t => simp

theorem getLastD_mem {l : List ℕ} (h : l ≠ []) : l.getLastD 0 ∈ l := by
  cases l with
  | nil => exact absurd rfl h
  | cons x t =>
    rw [List.getLastD_cons]
    exact List.getLastD_mem_cons t x

theorem range_map_getD (n : ℕ) (f : ℕ → Bool) (v : ℕ) :
    ((List.range n).map f).getD v false = if v < n then f v else false := by
  by_cases hv : v < n
  · rw [if_pos hv, List.getD_eq_getElem?_getD, List.getElem?_map,
      List.getElem?_range hv]
    rfl
  · rw [if_neg hv, List.getD_eq_getElem?_getD, List.getElem?_eq_none]
    · rfl
    · simp
      omega

theorem predChain_all_lt {G : SGraph α} {S : List ℕ} {lim : α} :
    ∀ {c : List ℕ}, List.Chain' (fun a b => limPred G S lim b = some a) c →
      c.headD 0 < G.n → ∀ v ∈ c, v < G.n := by
  intro c
  induction c with
  | nil => intro _ _ v hv; simp at hv
  | cons x t ih =>
    intro hch hh v hv
    cases t with
    | nil =>
      rw [List.mem_singleton.mp hv]
      exact hh
    | cons y t2 =>
      rcases List.mem_cons.mp hv with rfl | hv2
      · exact hh
      · rw [List.chain'_cons] at hch
        have hy : y < G.n := by
          obtain ⟨hdij, hld⟩ := limPred_some_elim hch.1
          obtain ⟨d, hd, _⟩ := limDist_ne_none hld
          exact sdist_lt_n hd
        exact ih hch.2 hy v hv2

/-- Structural facts about a recovered path (`utils.get_path` output for the
radius-limited search from `target`). -/
theorem path_facts (G : SGraph α) {target : ℕ} {lim : α} {branch : ℕ}
    {path : List ℕ}
    (h : get_path G.n target (limPred G [target] lim) branch = .ok path) :
    path ≠ [] ∧ path.headD 0 = target ∧ path.getLastD 0 = branch ∧
      List.Chain' G.Adj path ∧ path.Nodup ∧
      (target < G.n → ∀ v ∈ path, v < G.n) ∧
      (∀ v ∈ path.dropLast,
        olt (sdist G [target] v) (sdist G [target] branch)) := by
  obtain ⟨hne, hh, hl, hch⟩ := get_path_sound h
  have hstrict := predChain_strict hch
  have hpw := chain'_strict_pairwise (sdist G [target]) path hstrict
  refine ⟨hne, hh, hl, predChain_adj hch, pairwise_strict_nodup _ _ hpw, ?_, ?_⟩
  · intro ht v hv
    exact predChain_all_lt hch (by rw [hh]; exact ht) v hv
  · intro v hv
    have := pairwise_dropLast_last hpw hne v hv
    rw [hl] at this
    exact this

theorem productVal_true (d : Option α) : productVal d true = some d := by
  cases d <;> rfl

theorem productVal_false_some (q : α) :
    productVal (some q) false = some (some 0 : Option α) := rfl

theorem productVal_false_none :
    productVal (none : Option α) false = none := rfl

theorem productVal_some_of_false {d : Option α} {x : Option α}
    (h : productVal d false = some x) : d ≠ none ∧ x = some 0 := by
  cases d with
  | none => exact absurd h (by simp [productVal])
  | some q =>
    refine ⟨by simp, ?_⟩
    rw [productVal_false_some] at h
    exact (Option.some_inj.mp h).symm

theorem countTrue_eq_countP_range :
    ∀ l : List Bool,
      countTrue l = (List.range l.length).countP (fun v => l.getD v false)
  | [] => rfl
  | b :: t => by
    have ih := countTrue_eq_countP_range t
    unfold countTrue at ih ⊢
    rw [List.count_cons]
    rw [List.length_cons, List.range_succ_eq_map, List.countP_cons,
      List.countP_map]
    have h1 : (List.range t.length).countP
        ((fun v => (b :: t).getD v false) ∘ (fun i => i + 1)) =
        (List.range t.length).countP (fun v => t.getD v false) := by
      refine List.countP_congr ?_
      intro v _
      rfl
    rw [h1, ← ih]
    simp only [List.getD_cons_zero]
    rcases b with _ | _ <;> simp [countTrue]

theorem countTrue_pos_exists {l : List Bool} (h : 0 < countTrue l) :
    ∃ v, l.getD v false = true := by
  unfold countTrue at h
  rw [List.count_pos_iff_mem] at h
  obtain ⟨i, hi, hget⟩ := List.getElem_of_mem h
  refine ⟨i, ?_⟩
  rw [List.getD_eq_getElem?_getD, List.getElem?_eq_getElem hi, hget]
  rfl

/-- The loop invariant of `graph_teasar_component`: the mask has the right
length, `visited_nodes` contains the (in-range) root and only in-range
vertices, every valid vertex is reachable from the root, and whenever the
root itself is still valid the loop has not yet run (`visited = [root]`). -/
structure Inv (G : SGraph α) (root : ℕ) (s : TState α) : Prop where
  vlen : s.valid.length = G.n
  rootmem : root ∈ s.visited
  rootlt : root < G.n
  vislt : ∀ v ∈ s.visited, v < G.n
  validReach : ∀ v, s.valid.getD v false = true → sdist G [root] v ≠ none
  rootOnly : s.valid.getD root false = true → s.visited = [root]

theorem component_init_ok {G : SGraph α} {root : ℕ} {valid0 : List Bool}
    {io : InitOut α}
    (h : (component_init G root (some valid0) none none).2 = .ok io) :
    io.rds = dijkstraDs G root ∧ io.rpred = dijkstraPredArr G root ∧
      io.valid = valid0 ∧ valid0.length = G.n ∧
      ∀ v, valid0.getD v false = true → sdist G [root] v ≠ none := by
  have h2 : (if valid0.length ≠ G.n then
        ((1 : ℕ), (.error .maskLen : Except Err (InitOut α)))
      else if (List.range G.n).any
          (fun v => decide (dijkstraDs G root v = none) && valid0.getD v false)
        then (1, .error .unreachableValid)
      else (1, .ok ⟨dijkstraDs G root, dijkstraPredArr G root, valid0⟩)).2 =
      .ok io := h
  split at h2
  · exact absurd h2 (by simp)
  · rename_i hlen
    split at h2
    · exact absurd h2 (by simp)
    · rename_i hany
      cases Except.ok.inj h2
      refine ⟨rfl, rfl, rfl, by omega, ?_⟩
      intro v hv hnone
      have hvlt : v < G.n := by
        by_contra hge
        rw [List.getD_eq_getElem?_getD, List.getElem?_eq_none (by omega)] at hv
        simp at hv
      refine hany ?_
      rw [List.any_eq_true]
      refine ⟨v, List.mem_range.mpr hvlt, ?_⟩
      rw [Bool.and_eq_true, decide_eq_true_eq]
      exact ⟨hnone, hv⟩

theorem init_state_inv {G : SGraph α} {root : ℕ} {valid0 : List Bool}
    {io : InitOut α} (hroot : root < G.n)
    (h : (component_init G root (some valid0) none none).2 = .ok io) :
    Inv G root (init_state io root) := by
  obtain ⟨_, _, hvalid, hlen, hreach⟩ := component_init_ok h
  refine ⟨?_, by simp [init_state], hroot, ?_, ?_, fun _ => rfl⟩
  · show io.valid.length = G.n
    rw [hvalid, hlen]
  · intro v hv
    have hv2 : v ∈ ([root] : List ℕ) := hv
    rw [List.mem_singleton.mp hv2]
    exact hroot
  · intro v hv
    have hv2 : io.valid.getD v false = true := hv
    rw [hvalid] at hv2
    exact hreach v hv2

/-- The selected target is an in-range index and its product entry is the
recorded value. -/
theorem target_of_select {G : SGraph α} {rds : ℕ → Option α} {valid : List Bool}
    {target : ℕ} {tval : Option α}
    (hsel : selectTarget G rds valid = some (target, tval)) :
    target < G.n ∧ productVal (rds target) (valid.getD target false) = some tval := by
  have hget := nanargmax_get _ _ _ hsel
  have htlt : target < G.n := by
    by_contra hge
    rw [List.getElem?_eq_none] at hget
    · simp at hget
    · unfold products
      rw [List.length_map, List.length_range]
      omega
  rw [products_get G rds valid htlt] at hget
  exact ⟨htlt, Option.some_inj.mp hget⟩

/-- `valid` entries only ever flip from `true` to `false` in one iteration. -/
theorem step_valid_mono {G : SGraph α} {rds : ℕ → Option α} {rpred : ℕ → Option ℕ}
    {invd : α} {s s2 : TState α}
    (h : stepE G rds rpred invd s = .ok s2) :
    ∀ v, s2.valid.getD v false = true → s.valid.getD v false = true := by
  obtain ⟨target, tval, dt, bb, db, branch, path, plen, heq1, heq2, heq3, heq4,
    hlim, heq5, heq6, heq7, hinvd, hvalid2, _, _, _, _, _⟩ := step_spec h
  intro v hv
  rw [hvalid2, range_map_getD] at hv
  split at hv
  · split at hv
    · exact hv
    · exact absurd hv (by simp)
  · exact absurd hv (by simp)

/-- Target selection dichotomy: the selected target is valid, or every valid
vertex is the root itself (which forces `visited = [root]`).  Uses the fact
that a finite times `False` product is `0` while valid vertices keep their
(nonnegative) distances. -/
theorem target_case (G : SGraph α) (hn : G.Nonneg) {root : ℕ} {s : TState α}
    {target : ℕ} {tval : Option α} {dt : α} (hInv : Inv G root s)
    (hcount : 0 < countTrue s.valid)
    (hsel : selectTarget G (dijkstraDs G root) s.valid = some (target, tval))
    (hdt : sdist G [root] target = some dt) :
    s.valid.getD target false = true ∨
      (s.valid.getD target false = false ∧ s.valid.getD root false = true ∧
        s.visited = [root] ∧
        ∀ v, s.valid.getD v false = true → v = root) := by
  by_cases hvt : s.valid.getD target false = true
  · exact Or.inl hvt
  · right
    rw [Bool.not_eq_true] at hvt
    obtain ⟨htlt, hprod⟩ := target_of_select hsel
    have hrdst : dijkstraDs G root target = some dt := hdt
    rw [hvt, hrdst, productVal_false_some] at hprod
    have htval : tval = some 0 := (Option.some_inj.mp hprod).symm
    subst htval
    have hall : ∀ v, s.valid.getD v false = true → v = root := by
      intro v hv
      have hvlt : v < G.n := by
        by_contra hge
        rw [List.getD_eq_getElem?_getD,
          List.getElem?_eq_none (by rw [hInv.vlen]; omega)] at hv
        simp at hv
      have hentry : (products G (dijkstraDs G root) s.valid)[v]? =
          some (some (sdist G [root] v)) := by
        rw [products_get G _ _ hvlt, hv, productVal_true]
        rfl
      have hle := nanargmax_le _ _ _ hsel v (sdist G [root] v) hentry
      have hge := sdist_nonneg G hn [root] v
      have := ole_antisymm hle hge
      exact List.mem_singleton.mp (sdist_eq_zero_mem G hn this)
    obtain ⟨v, hv⟩ := countTrue_pos_exists hcount
    have hvroot := hall v hv
    subst hvroot
    exact ⟨hvt, hv, hInv.rootOnly hv, hall⟩

/-- Invariant preservation over one successful iteration. -/
theorem step_inv (G : SGraph α) (hn : G.Nonneg) {root : ℕ} {invd : α}
    {s s2 : TState α} (hInv : Inv G root s)
    (h : stepE G (dijkstraDs G root) (dijkstraPredArr G root) invd s = .ok s2) :
    Inv G root s2 := by
  obtain ⟨target, tval, dt, bb, db, branch, path, plen, heq1, heq2, heq3, heq4,
    hlim, heq5, heq6, heq7, hinvd, hvalid2, hvis2, hpaths2, hplens2, hmd2,
    hmm2⟩ := step_spec h
  obtain ⟨htlt, _⟩ := target_of_select heq1
  obtain ⟨hpne, hph, hpl, hpch, hpnd, hplt, hpstr⟩ := path_facts G heq6
  have hmono := step_valid_mono h
  refine ⟨?_, ?_, hInv.rootlt, ?_, ?_, ?_⟩
  · rw [hvalid2, List.length_map, List.length_range]
  · rw [hvis2]
    exact List.mem_append_left _ hInv.rootmem
  · intro v hv
    rw [hvis2] at hv
    rcases List.mem_append.mp hv with hv | hv
    · exact hInv.vislt v hv
    · exact hplt htlt v ((List.dropLast_sublist path).subset hv)
  · intro v hv
    exact hInv.validReach v (hmono v hv)
  · intro hv
    have hvroot := hmono root hv
    have hvisited := hInv.rootOnly hvroot
    have hbranch : branch = root := by
      have := argminList_mem heq5
      rw [hvisited] at this
      exact List.mem_singleton.mp this
    have hrootpath : root ∈ path := by
      rw [← hbranch, ← hpl]
      exact getLastD_mem hpne
    have hsd0 : sdist G path root = some 0 :=
      sdist_source G hn hrootpath hInv.rootlt
    have hld : limDist G path invd root = some 0 :=
      limDist_of_sdist hsd0 (not_lt.mp hinvd)
    rw [hvalid2, range_map_getD, if_pos hInv.rootlt, hld] at hv
    exact absurd hv (by simp)

/-- The count of valid vertices strictly decreases in every iteration. -/
theorem step_count_lt (G : SGraph α) (hn : G.Nonneg) {root : ℕ} {invd : α}
    {s s2 : TState α} (hInv : Inv G root s) (hcount : 0 < countTrue s.valid)
    (h : stepE G (dijkstraDs G root) (dijkstraPredArr G root) invd s = .ok s2) :
    countTrue s2.valid < countTrue s.valid := by
  obtain ⟨target, tval, dt, bb, db, branch, path, plen, heq1, heq2, heq3, heq4,
    hlim, heq5, heq6, heq7, hinvd, hvalid2, hvis2, hpaths2, hplens2, hmd2,
    hmm2⟩ := step_spec h
  obtain ⟨htlt, _⟩ := target_of_select heq1
  obtain ⟨hpne, hph, hpl, hpch, hpnd, hplt, hpstr⟩ := path_facts G heq6
  have hdt : sdist G [root] target = some dt := heq2
  -- a vertex that is valid in `s` and invalidated by this sweep
  have hwitness : ∃ v0, v0 < G.n ∧ s.valid.getD v0 false = true ∧
      limDist G path invd v0 ≠ none := by
    rcases target_case G hn hInv hcount heq1 hdt with hvt | ⟨_, hvr, hvisited, _⟩
    · refine ⟨target, htlt, hvt, ?_⟩
      have htp : target ∈ path := by
        rw [← hph]
        exact headD_mem hpne
      rw [limDist_of_sdist (sdist_source G hn htp htlt) (not_lt.mp hinvd)]
      simp
    · refine ⟨root, hInv.rootlt, hvr, ?_⟩
      have hbranch : branch = root := by
        have := argminList_mem heq5
        rw [hvisited] at this
        exact List.mem_singleton.mp this
      have hrootpath : root ∈ path := by
        rw [← hbranch, ← hpl]
        exact getLastD_mem hpne
      rw [limDist_of_sdist (sdist_source G hn hrootpath hInv.rootlt)
        (not_lt.mp hinvd)]
      simp
  obtain ⟨v0, hv0lt, hv0valid, hv0dm⟩ := hwitness
  have e1 : countTrue s2.valid = (List.range G.n).countP
      (fun v => if limDist G path invd v = none then s.valid.getD v false
        else false) := by
    rw [hvalid2, countTrue_eq_countP_range, List.length_map, List.length_range]
    refine List.countP_congr ?_
    intro v hv
    rw [range_map_getD, if_pos (List.mem_range.mp hv)]
  have e2 : countTrue s.valid = (List.range G.n).countP
      (fun v => s.valid.getD v false) := by
    rw [countTrue_eq_countP_range, hInv.vlen]
  rw [e1, e2]
  refine countP_lt_of_witness _ _ (List.range G.n) ?_ v0
    (List.mem_range.mpr hv0lt) hv0valid ?_
  · intro a _ ha
    split at ha
    · exact ha
    · exact absurd ha (by simp)
  · rw [if_neg hv0dm]

/-- Progress: under the invariant, with a nonnegative invalidation radius and
at least one valid vertex left, one iteration completes without error. -/
theorem step_progress (G : SGraph α) (hn : G.Nonneg) (hs : G.Symm) {root : ℕ}
    {invd : α} (hinvd : 0 ≤ invd) {s : TState α} (hInv : Inv G root s)
    (hcount : 0 < countTrue s.valid) :
    ∃ s2, stepE G (dijkstraDs G root) (dijkstraPredArr G root) invd s =
      .ok s2 := by
  -- the target exists: the root's product entry is not NaN
  have hrootentry : ∃ y, (products G (dijkstraDs G root) s.valid)[root]? =
      some (some y) := by
    have hs0 : sdist G [root] root =
        some 0 := sdist_source G hn (by simp) hInv.rootlt
    rcases hb : s.valid.getD root false with _ | _
    · refine ⟨some 0, ?_⟩
      rw [products_get G _ _ hInv.rootlt, hb]
      rw [show dijkstraDs G root root = sdist G [root] root from rfl, hs0]
      rfl
    · refine ⟨some 0, ?_⟩
      rw [products_get G _ _ hInv.rootlt, hb]
      rw [show dijkstraDs G root root = sdist G [root] root from rfl, hs0,
        productVal_true]
  obtain ⟨y, hentry⟩ := hrootentry
  have hsel0 := nanargmax_isSome _ root y hentry
  rw [Option.isSome_iff_exists] at hsel0
  obtain ⟨⟨target, tval⟩, hsel⟩ := hsel0
  have hseltgt : selectTarget G (dijkstraDs G root) s.valid =
      some (target, tval) := hsel
  obtain ⟨htlt, hprod⟩ := target_of_select hseltgt
  -- target is reachable
  have hdt : ∃ dt, sdist G [root] target = some dt := by
    rcases hb : s.valid.getD target false with _ | _
    · rw [hb] at hprod
      obtain ⟨hne, _⟩ := productVal_some_of_false hprod
      match h3 : dijkstraDs G root target with
      | none => exact absurd h3 hne
      | some d => exact ⟨d, h3⟩
    · have := hInv.validReach target hb
      match h3 : sdist G [root] target with
      | none => exact absurd h3 this
      | some d => exact ⟨d, rfl⟩
  obtain ⟨dt, hdt⟩ := hdt
  -- the branch-bound walk succeeds
  obtain ⟨bb, hbb⟩ := bbWalk_ok G hn hInv.rootmem (G.n + 1) target dt hdt
    (by have := rank_le_n G [root] target; omega)
  obtain ⟨db, hdb, hdble, hdist_bb⟩ :=
    bbWalk_bound G hn hs root s.visited (G.n + 1) target bb dt hbb hdt
  have hbbmem := bbWalk_mem hbb
  -- the already-visited vertex bb is within the radius limit
  have hldbb : limDist G [target] (dt - db) bb ≠ none := by
    match h3 : sdist G [target] bb with
    | none => rw [h3] at hdist_bb; exact absurd hdist_bb (by simp [ole])
    | some e =>
      rw [h3, ole_some_iff] at hdist_bb
      rw [limDist_of_sdist h3 hdist_bb]
      simp
  obtain ⟨branch, hbranch⟩ := argminList_isSome
    (fun v => limDist G [target] (dt - db) v) s.visited
    (by intro h3; rw [h3] at hbbmem; simp at hbbmem)
  have hldbranch : limDist G [target] (dt - db) branch ≠ none := by
    have hle := argminList_le hbranch bb hbbmem
    intro h3
    rw [h3] at hle
    match h4 : limDist G [target] (dt - db) bb with
    | none => exact hldbb h4
    | some e => rw [h4] at hle; exact hle
  obtain ⟨path, hpath⟩ := get_path_ok G hn target (dt - db) branch hldbranch
  obtain ⟨plen, hplen⟩ := (by
    match h3 : limDist G [target] (dt - db) branch with
    | none => exact absurd h3 hldbranch
    | some e => exact ⟨e, rfl⟩ : ∃ plen,
      limDist G [target] (dt - db) branch = some plen)
  -- assemble the successful run of stepE
  refine ⟨⟨(List.range G.n).map
      (fun v => if limDist G path invd v = none then s.valid.getD v false
        else false),
      s.visited ++ path.dropLast, s.paths ++ [path], s.plens ++ [plen],
      fun v => if olt (limDist G path invd v) (s.mdist v)
        then limDist G path invd v else s.mdist v,
      fun v => if olt (limDist G path invd v) (s.mdist v)
        then srcAttrib G path invd v else s.mmap v⟩, ?_⟩
  unfold stepE
  rw [hseltgt]
  simp only [show dijkstraDs G root target = some dt from hdt,
    show dijkstraPredArr G root = dijPred G [root] from rfl, hbb,
    show dijkstraDs G root bb = some db from hdb, hbranch, hpath, hplen,
    if_neg (show ¬ dt - db < 0 by linarith),
    if_neg (show ¬ invd < 0 by linarith)]

theorem countTrue_zero {l : List Bool} (h : countTrue l = 0) (v : ℕ) :
    l.getD v false = false := by
  unfold countTrue at h
  rw [List.count_eq_zero] at h
  by_cases hv : v < l.length
  · rw [List.getD_eq_getElem?_getD, List.getElem?_eq_getElem hv]
    rcases h2 : l[v] with _ | _
    · rfl
    · exact absurd (h2 ▸ List.getElem_mem hv) h
  · rw [List.getD_eq_getElem?_getD, List.getElem?_eq_none (by omega)]
    rfl

/-- Termination: with fuel exceeding the number of valid vertices, the loop
ends normally with an all-false mask. -/
theorem teasar_run_ok (G : SGraph α) (hn : G.Nonneg) (hs : G.Symm) {root : ℕ}
    {invd : α} (hinvd : 0 ≤ invd) :
    ∀ (fuel : ℕ) (s : TState α), Inv G root s → countTrue s.valid < fuel →
      ∃ sf, teasar_run G (dijkstraDs G root) (dijkstraPredArr G root) invd
        fuel s = .ok sf ∧ countTrue sf.valid = 0
  | 0, s, _, hlt => by omega
  | fuel+1, s, hInv, hlt => by
    rw [teasar_run]
    by_cases hz : countTrue s.valid = 0
    · rw [if_pos hz]
      exact ⟨s, rfl, hz⟩
    · rw [if_neg hz]
      have hpos : 0 < countTrue s.valid := Nat.pos_of_ne_zero hz
      obtain ⟨s2, hstep⟩ := step_progress G hn hs hinvd hInv hpos
      rw [hstep]
      have hInv2 := step_inv G hn hInv hstep
      have hdec := step_count_lt G hn hInv hpos hstep
      exact teasar_run_ok G hn hs hinvd fuel s2 hInv2 (by omega)

theorem teasar_run_final_count {G : SGraph α} {rds : ℕ → Option α}
    {rpred : ℕ → Option ℕ} {invd : α} :
    ∀ {fuel : ℕ} {s sf : TState α},
      teasar_run G rds rpred invd fuel s = .ok sf → countTrue sf.valid = 0 := by
  intro fuel
  induction fuel with
  | zero => intro s sf h; simp [teasar_run] at h
  | succ fuel ih =>
    intro s sf h
    rw [teasar_run] at h
    split at h
    · cases Except.ok.inj h
      assumption
    · match h2 : stepE G rds rpred invd s with
      | .ok s2 => rw [h2] at h; exact ih h
      | .error e => rw [h2] at h; exact absurd h (by simp)

theorem teasar_run_paths_mono {G : SGraph α} {rds : ℕ → Option α}
    {rpred : ℕ → Option ℕ} {invd : α} :
    ∀ {fuel : ℕ} {s sf : TState α},
      teasar_run G rds rpred invd fuel s = .ok sf →
      ∀ p ∈ s.paths, p ∈ sf.paths := by
  intro fuel
  induction fuel with
  | zero => intro s sf h; simp [teasar_run] at h
  | succ fuel ih =>
    intro s sf h
    rw [teasar_run] at h
    split at h
    · cases Except.ok.inj h
      exact fun p hp => hp
    · match h2 : stepE G rds rpred invd s with
      | .ok s2 =>
        rw [h2] at h
        intro p hp
        obtain ⟨_, _, _, _, _, _, _, _, _, _, _, _, _, _, _, _, _, _, _,
          hpaths2, _, _, _⟩ := step_spec h2
        refine ih h p ?_
        rw [hpaths2]
        exact List.mem_append_left _ hp
      | .error e => rw [h2] at h; exact absurd h (by simp)

/-- Coverage: every vertex valid when the loop starts ends within
`invalidation_d` of a vertex of some recorded path. -/
theorem teasar_run_coverage (G : SGraph α) (hn : G.Nonneg)
    {rds : ℕ → Option α} {rpred : ℕ → Option ℕ} {invd : α} :
    ∀ {fuel : ℕ} {s sf : TState α}, s.valid.length = G.n →
      teasar_run G rds rpred invd fuel s = .ok sf →
      ∀ v, s.valid.getD v false = true →
      ∃ p ∈ sf.paths, ∃ u ∈ p, ole (sdist G [u] v) (some invd) := by
  intro fuel
  induction fuel with
  | zero => intro s sf _ h; simp [teasar_run] at h
  | succ fuel ih =>
    intro s sf hlen h v hv
    rw [teasar_run] at h
    split at h
    · rename_i hz
      exact absurd hv (by rw [countTrue_zero hz v]; simp)
    · match h2 : stepE G rds rpred invd s with
      | .ok s2 =>
        rw [h2] at h
        obtain ⟨target, tval, dt, bb, db, branch, path, plen, heq1, heq2, heq3,
          heq4, hlim, heq5, heq6, heq7, hinvd, hvalid2, hvis2, hpaths2, hplens2,
          hmd2, hmm2⟩ := step_spec h2
        have hlen2 : s2.valid.length = G.n := by
          rw [hvalid2, List.length_map, List.length_range]
        by_cases hv2 : s2.valid.getD v false = true
        · exact ih hlen2 h v hv2
        · have hvlt : v < G.n := by
            by_contra hge
            rw [List.getD_eq_getElem?_getD,
              List.getElem?_eq_none (by omega)] at hv
            simp at hv
          have hdm : limDist G path invd v ≠ none := by
            intro hno
            refine hv2 ?_
            rw [hvalid2, range_map_getD, if_pos hvlt, if_pos hno]
            exact hv
          obtain ⟨d, hd, hdle⟩ := limDist_ne_none hdm
          obtain ⟨u, hu, hus⟩ := sdist_multi_attained G hn hd
          refine ⟨path, ?_, u, hu, ?_⟩
          · refine teasar_run_paths_mono h path ?_
            rw [hpaths2]
            exact List.mem_append_right _ (by simp)
          · rw [hus, ole_some_iff]
            exact hdle
      | .error e => rw [h2] at h; exact absurd h (by simp)

/-- The specification of a recorded path/length pair: consecutive vertices
adjacent, and the recorded length is the exact shortest-path distance between
the path's first vertex and its last vertex (achieved by some walk, and a
lower bound on all walks). -/
def PathSpec (G : SGraph α) (p : List ℕ) (l : α) : Prop :=
  p ≠ [] ∧ List.Chain' G.Adj p ∧
    (∃ q, IsWalk G q ∧ q.headD 0 = p.headD 0 ∧ q.getLastD 0 = p.getLastD 0 ∧
      wlen G q = l) ∧
    (∀ q, IsWalk G q → q.headD 0 = p.headD 0 → q.getLastD 0 = p.getLastD 0 →
      l ≤ wlen G q)

theorem step_pathspec (G : SGraph α) (hn : G.Nonneg) {target : ℕ} {lim : α}
    {branch : ℕ} {path : List ℕ} {plen : α}
    (hpath : get_path G.n target (limPred G [target] lim) branch = .ok path)
    (hplen : limDist G [target] lim branch = some plen) :
    PathSpec G path plen := by
  obtain ⟨hpne, hph, hpl, hpch, _, _, _⟩ := path_facts G hpath
  obtain ⟨hsd, _⟩ := limDist_eq_some_iff.mp hplen
  obtain ⟨q, hq, hqh, hql, hqw⟩ := sdist_achieves G [target] branch plen hsd
  refine ⟨hpne, hpch, ⟨q, hq, ?_, ?_, hqw⟩, ?_⟩
  · rw [hph]
    exact List.mem_singleton.mp hqh
  · rw [hpl]
    exact hql
  · intro q2 hq2 hq2h hq2l
    have h1 := sdist_le_wlen G hn [target] q2 hq2
      (by rw [hq2h, hph]; simp)
    rw [hq2l, hpl, hsd, ole_some_iff] at h1
    exact h1

theorem forall₂_getElem {R : List ℕ → α → Prop} :
    ∀ {l1 : List (List ℕ)} {l2 : List α}, List.Forall₂ R l1 l2 →
      ∀ {i : ℕ} {a : List ℕ} {b : α}, l1[i]? = some a → l2[i]? = some b → R a b := by
  intro l1 l2 h
  induction h with
  | nil => intro i a b ha _; simp at ha
  | cons hR htail ih =>
    intro i a b ha hb
    cases i with
    | zero =>
      simp only [List.getElem?_cons_zero, Option.some_inj] at ha hb
      rw [← ha, ← hb]
      exact hR
    | succ i =>
      simp only [List.getElem?_cons_succ] at ha hb
      exact ih ha hb

theorem teasar_run_pathspec (G : SGraph α) (hn : G.Nonneg)
    {rds : ℕ → Option α} {rpred : ℕ → Option ℕ} {invd : α} :
    ∀ {fuel : ℕ} {s sf : TState α},
      teasar_run G rds rpred invd fuel s = .ok sf →
      List.Forall₂ (PathSpec G) s.paths s.plens →
      List.Forall₂ (PathSpec G) sf.paths sf.plens := by
  intro fuel
  induction fuel with
  | zero => intro s sf h; simp [teasar_run] at h
  | succ fuel ih =>
    intro s sf h hF
    rw [teasar_run] at h
    split at h
    · cases Except.ok.inj h
      exact hF
    · match h2 : stepE G rds rpred invd s with
      | .ok s2 =>
        rw [h2] at h
        obtain ⟨target, tval, dt, bb, db, branch, path, plen, heq1, heq2, heq3,
          heq4, hlim, heq5, heq6, heq7, hinvd, hvalid2, hvis2, hpaths2, hplens2,
          hmd2, hmm2⟩ := step_spec h2
        refine ih h ?_
        rw [hpaths2, hplens2]
        exact List.rel_append hF
          (List.Forall₂.cons (step_pathspec G hn heq6 heq7) List.Forall₂.nil)
      | .error e => rw [h2] at h; exact absurd h (by simp)

/-!
## The vertex-to-skeleton map invariant
-/

/-- Minimum, over the recorded paths, of a vertex's radius-limited distance
to each path (the running minimum the map is supposed to store). -/
def sweepMin (G : SGraph α) (invd : α) (paths : List (List ℕ)) (v : ℕ) :
    Option α :=
  paths.foldl (fun a p => omin a (limDist G p invd v)) none

theorem foldl_omin_le_acc (g : List ℕ → Option α) :
    ∀ (l : List (List ℕ)) (a : Option α),
      ole (l.foldl (fun a p => omin a (g p)) a) a
  | [], a => ole_refl a
  | p :: l, a =>
    ole_trans (foldl_omin_le_acc g l (omin a (g p))) (omin_le_left _ _)

theorem foldl_omin_le_elem (g : List ℕ → Option α) :
    ∀ (l : List (List ℕ)) (a : Option α) (p : List ℕ), p ∈ l →
      ole (l.foldl (fun a p => omin a (g p)) a) (g p)
  | [], _, p, hp => absurd hp (List.not_mem_nil p)
  | q :: l, a, p, hp => by
    rcases List.mem_cons.mp hp with rfl | hp2
    · exact ole_trans (foldl_omin_le_acc g l _) (omin_le_right _ _)
    · exact foldl_omin_le_elem g l _ p hp2

theorem sweepMin_le (G : SGraph α) (invd : α) {paths : List (List ℕ)}
    {p : List ℕ} (hp : p ∈ paths) (v : ℕ) :
    ole (sweepMin G invd paths v) (limDist G p invd v) :=
  foldl_omin_le_elem _ paths none p hp

theorem sweepMin_concat (G : SGraph α) (invd : α) (paths : List (List ℕ))
    (p : List ℕ) (v : ℕ) :
    sweepMin G invd (paths ++ [p]) v =
      omin (sweepMin G invd paths v) (limDist G p invd v) := by
  unfold sweepMin
  rw [List.foldl_append]
  rfl

/-- Invariant of the optional vertex-to-skeleton map: the recorded distance is
the minimum over all sweeps so far, and the recorded assignment is a vertex
of a recorded path attaining that distance. -/
def MapInv (G : SGraph α) (invd : α) (s : TState α) : Prop :=
  ∀ v, s.mdist v = sweepMin G invd s.paths v ∧
    (s.mdist v ≠ none → ∃ u p, s.mmap v = some u ∧ p ∈ s.paths ∧ u ∈ p ∧
      sdist G [u] v = s.mdist v ∧ limDist G p invd v = s.mdist v) ∧
    (s.mdist v = none → s.mmap v = none)

theorem init_mapinv (io : InitOut α) (root : ℕ) {G : SGraph α} {invd : α} :
    MapInv G invd (init_state io root) := by
  intro v
  refine ⟨rfl, ?_, fun _ => rfl⟩
  intro h
  exact absurd rfl h

theorem step_mapinv (G : SGraph α) (hn : G.Nonneg) {rds : ℕ → Option α}
    {rpred : ℕ → Option ℕ} {invd : α} {s s2 : TState α}
    (h : stepE G rds rpred invd s = .ok s2) (hM : MapInv G invd s) :
    MapInv G invd s2 := by
  obtain ⟨target, tval, dt, bb, db, branch, path, plen, heq1, heq2, heq3,
    heq4, hlim, heq5, heq6, heq7, hinvd, hvalid2, hvis2, hpaths2, hplens2,
    hmd2, hmm2⟩ := step_spec h
  intro v
  obtain ⟨hM1, hM2, hM3⟩ := hM v
  have hmd2v : s2.mdist v =
      if olt (limDist G path invd v) (s.mdist v) then limDist G path invd v
      else s.mdist v := by rw [hmd2]
  have hmm2v : s2.mmap v =
      if olt (limDist G path invd v) (s.mdist v) then srcAttrib G path invd v
      else s.mmap v := by rw [hmm2]
  by_cases hover : olt (limDist G path invd v) (s.mdist v)
  · -- overwrite with the new, strictly closer sweep
    rw [if_pos hover] at hmd2v hmm2v
    have hdm : ∃ d, limDist G path invd v = some d := by
      match h3 : limDist G path invd v with
      | none => rw [h3] at hover; exact absurd hover (by simp [olt])
      | some d => exact ⟨d, rfl⟩
    obtain ⟨d, hd⟩ := hdm
    refine ⟨?_, ?_, ?_⟩
    · rw [hmd2v, hpaths2, sweepMin_concat, ← hM1,
        omin_eq_right (ole_of_olt hover)]
    · intro _
      obtain ⟨u, hsrc⟩ := srcAttrib_isSome G hn hd
      obtain ⟨humem, hueq⟩ := srcAttrib_spec hsrc
      refine ⟨u, path, by rw [hmm2v, hsrc], by rw [hpaths2]; simp, humem, ?_, ?_⟩
      · rw [hueq, hmd2v]
        obtain ⟨hsd, _⟩ := limDist_eq_some_iff.mp hd
        rw [hd, hsd]
      · rw [hmd2v]
    · intro hno
      rw [hmd2v, hd] at hno
      exact absurd hno (by simp)
  · rw [if_neg hover] at hmd2v hmm2v
    have hkeep : ole (s.mdist v) (limDist G path invd v) :=
      not_olt_iff_ole.mp hover
    refine ⟨?_, ?_, ?_⟩
    · rw [hmd2v, hpaths2, sweepMin_concat, ← hM1, omin_eq_left hkeep]
    · intro hne
      rw [hmd2v] at hne
      obtain ⟨u, p, hmmap, hpmem, humem, hsd, hld⟩ := hM2 hne
      refine ⟨u, p, by rw [hmm2v]; exact hmmap, by rw [hpaths2]; simp [hpmem],
        humem, by rw [hmd2v]; exact hsd, by rw [hmd2v]; exact hld⟩
    · intro hno
      rw [hmd2v] at hno
      rw [hmm2v]
      exact hM3 hno

/-!
## Reachable loop states
-/

theorem except_toOption_ok {e : Except Err (TState α)} {x : TState α}
    (h : e.toOption = some x) : e = .ok x := by
  cases e with
  | ok y =>
    have : some y = some x := h
    rw [Option.some_inj.mp this]
  | error e2 => exact absurd h (by simp [Except.toOption])

theorem reach_zero {G : SGraph α} {root : ℕ} {valid0 : List Bool} {invd : α}
    {s : TState α} (h : reach_state G root valid0 invd 0 = some s) :
    ∃ io, (component_init G root (some valid0) none none).2 = .ok io ∧
      s = init_state io root := by
  unfold reach_state at h
  split at h
  · rename_i io hio
    refine ⟨io, hio, ?_⟩
    have : some (init_state io root) = some s := h
    exact (Option.some_inj.mp this).symm
  · exact absurd h (by simp)

theorem reach_succ {G : SGraph α} {root : ℕ} {valid0 : List Bool} {invd : α}
    {k : ℕ} {s2 : TState α}
    (h : reach_state G root valid0 invd (k + 1) = some s2) :
    ∃ s, reach_state G root valid0 invd k = some s ∧
      countTrue s.valid ≠ 0 ∧
      stepE G (dijkstraDs G root) (dijkstraPredArr G root) invd s = .ok s2 := by
  unfold reach_state at h ⊢
  split at h
  · rename_i io hio
    obtain ⟨hrds, hrpred, _, _, _⟩ := component_init_ok hio
    rw [iterG] at h
    split at h
    · rename_i s hs
      split at h
      · exact absurd h (by simp)
      · rename_i hz
        refine ⟨s, hs, hz, ?_⟩
        rw [← hrds, ← hrpred]
        exact except_toOption_ok h
    · exact absurd h (by simp)
  · exact absurd h (by simp)

theorem reach_inv (G : SGraph α) (hn : G.Nonneg) {root : ℕ}
    {valid0 : List Bool} {invd : α} (hroot : root < G.n) :
    ∀ (k : ℕ) (s : TState α), reach_state G root valid0 invd k = some s →
      Inv G root s
  | 0, s, h => by
    obtain ⟨io, hio, rfl⟩ := reach_zero h
    exact init_state_inv hroot hio
  | k+1, s2, h => by
    obtain ⟨s, hs, hz, hstep⟩ := reach_succ h
    exact step_inv G hn (reach_inv G hn hroot k s hs) hstep

/-- The auxiliary invariant behind the implicit claims: `visited_nodes` is
duplicate-free and contains only invalidated vertices, and every recorded
path has at least two distinct vertices (requires that root starts
invalidated). -/
def Inv2 (s : TState α) : Prop :=
  s.visited.Nodup ∧ (∀ v ∈ s.visited, s.valid.getD v false = false) ∧
    ∀ p ∈ s.paths, 2 ≤ p.length ∧ p.Nodup

theorem step_inv2 (G : SGraph α) (hn : G.Nonneg) {root : ℕ} {invd : α}
    {s s2 : TState α} (hInv : Inv G root s) (hInv2 : Inv2 s)
    (hcount : 0 < countTrue s.valid)
    (h : stepE G (dijkstraDs G root) (dijkstraPredArr G root) invd s = .ok s2) :
    Inv2 s2 := by
  obtain ⟨target, tval, dt, bb, db, branch, path, plen, heq1, heq2, heq3,
    heq4, hlim, heq5, heq6, heq7, hinvd, hvalid2, hvis2, hpaths2, hplens2,
    hmd2, hmm2⟩ := step_spec h
  obtain ⟨htlt, _⟩ := target_of_select heq1
  obtain ⟨hpne, hph, hpl, hpch, hpnd, hplt, hpstr⟩ := path_facts G heq6
  have hdt : sdist G [root] target = some dt := heq2
  -- the target is valid (the degenerate root case contradicts Inv2)
  have hvt : s.valid.getD target false = true := by
    rcases target_case G hn hInv hcount heq1 hdt with hvt | ⟨_, hvr, _, _⟩
    · exact hvt
    · rw [hInv2.2.1 root hInv.rootmem] at hvr
      exact absurd hvr (by simp)
  -- interior path vertices are strictly closer to the target than the branch,
  -- hence not visited
  have hdisj : ∀ v ∈ path.dropLast, v ∉ s.visited := by
    intro v hv hmem
    have hstrict := hpstr v hv
    have hle := argminList_le heq5 v hmem
    rw [heq7] at hle
    match h3 : limDist G [target] (dt - db) v with
    | none =>
      obtain ⟨hsdb, hpllim⟩ := limDist_eq_some_iff.mp heq7
      rw [hsdb] at hstrict
      match h4 : sdist G [target] v with
      | none => rw [h4] at hstrict; exact absurd hstrict (by simp [olt])
      | some e =>
        rw [h4, olt_some_iff] at hstrict
        have : limDist G [target] (dt - db) v = some e :=
          limDist_of_sdist h4 (by linarith)
        rw [this] at h3
        exact absurd h3 (by simp)
    | some e =>
      rw [h3] at hle
      rw [ole_some_iff] at hle
      obtain ⟨hsv, _⟩ := limDist_eq_some_iff.mp h3
      obtain ⟨hsdb, _⟩ := limDist_eq_some_iff.mp heq7
      rw [hsv, hsdb, olt_some_iff] at hstrict
      linarith
  -- every path vertex is invalidated by the sweep
  have hpathinv : ∀ v ∈ path, s2.valid.getD v false = false := by
    intro v hv
    have hvlt := hplt htlt v hv
    have hsd0 : sdist G path v = some 0 := sdist_source G hn hv hvlt
    have hld := limDist_of_sdist hsd0 (not_lt.mp hinvd)
    rw [hvalid2, range_map_getD, if_pos hvlt, hld]
    simp
  have hmono := step_valid_mono h
  have hvfalse : ∀ v, s.valid.getD v false = false →
      s2.valid.getD v false = false := by
    intro v hv
    rcases h4 : s2.valid.getD v false with _ | _
    · rfl
    · rw [hmono v h4] at hv; exact absurd hv (by simp)
  refine ⟨?_, ?_, ?_⟩
  · rw [hvis2]
    refine List.Nodup.append hInv2.1 (hpnd.sublist (List.dropLast_sublist path)) ?_
    intro a ha ha2
    exact hdisj a ha2 ha
  · intro v hv
    rw [hvis2] at hv
    rcases List.mem_append.mp hv with hv | hv
    · exact hvfalse v (hInv2.2.1 v hv)
    · exact hpathinv v ((List.dropLast_sublist path).subset hv)
  · intro p hp
    rw [hpaths2] at hp
    rcases List.mem_append.mp hp with hp | hp
    · exact hInv2.2.2 p hp
    · rw [List.mem_singleton.mp hp]
      refine ⟨?_, hpnd⟩
      have htb : target ≠ branch := by
        intro hteq
        have hbmem := argminList_mem heq5
        rw [← hteq] at hbmem
        rw [hInv2.2.1 target hbmem] at hvt
        exact absurd hvt (by simp)
      match path, hpne, hph, hpl with
      | [x], _, hph, hpl =>
        simp only [List.headD_cons] at hph
        have hgl : ([x] : List ℕ).getLastD 0 = x := by simp
        rw [hgl] at hpl
        rw [← hph, ← hpl] at htb
        exact absurd rfl htb
      | x :: y :: t, _, _, _ => simp

theorem reach_inv2 (G : SGraph α) (hn : G.Nonneg) {root : ℕ}
    {valid0 : List Bool} {invd : α} (hroot : root < G.n)
    (hr0 : valid0.getD root false = false) :
    ∀ (k : ℕ) (s : TState α), reach_state G root valid0 invd k = some s →
      Inv2 s
  | 0, s, h => by
    obtain ⟨io, hio, rfl⟩ := reach_zero h
    obtain ⟨_, _, hval, _, _⟩ := component_init_ok hio
    refine ⟨List.nodup_singleton root, ?_, by simp [init_state]⟩
    intro v hv
    rw [List.mem_singleton.mp hv]
    show io.valid.getD root false = false
    rw [hval]
    exact hr0
  | k+1, s2, h => by
    obtain ⟨s, hs, hz, hstep⟩ := reach_succ h
    exact step_inv2 G hn (reach_inv G hn hroot k s hs)
      (reach_inv2 G hn hroot hr0 k s hs) (Nat.pos_of_ne_zero hz) hstep

theorem reach_mapinv (G : SGraph α) (hn : G.Nonneg) {root : ℕ}
    {valid0 : List Bool} {invd : α} :
    ∀ (k : ℕ) (s : TState α), reach_state G root valid0 invd k = some s →
      MapInv G invd s
  | 0, s, h => by
    obtain ⟨io, _, rfl⟩ := reach_zero h
    exact init_mapinv io root
  | k+1, s2, h => by
    obtain ⟨s, hs, _, hstep⟩ := reach_succ h
    exact step_mapinv G hn hstep (reach_mapinv G hn k s hs)

/-!
## Support lemmas for the claim statements
-/

/-- Initialization succeeds whenever the mask has the right length and every
valid vertex is reachable from the root. -/
theorem component_init_succeeds {G : SGraph α} {root : ℕ} {valid0 : List Bool}
    (hlen : valid0.length = G.n)
    (hreach : ∀ v, valid0.getD v false = true → sdist G [root] v ≠ none) :
    (component_init G root (some valid0) none none).2 =
      .ok ⟨dijkstraDs G root, dijkstraPredArr G root, valid0⟩ := by
  have h1 : component_init G root (some valid0) none none =
      (if valid0.length ≠ G.n then
        ((1 : ℕ), (.error .maskLen : Except Err (InitOut α)))
      else if (List.range G.n).any
          (fun v => decide (dijkstraDs G root v = none) && valid0.getD v false)
        then (1, .error .unreachableValid)
      else (1, .ok ⟨dijkstraDs G root, dijkstraPredArr G root, valid0⟩)) := rfl
  have hany : (List.range G.n).any
      (fun v => decide (dijkstraDs G root v = none) && valid0.getD v false) =
      false := by
    rw [List.any_eq_false]
    intro v _
    simp only [Bool.and_eq_true, decide_eq_true_eq, not_and]
    intro hds hval
    exact (hreach v hval) hds
  rw [h1, if_neg (by simp [hlen]), if_neg (by rw [hany]; simp)]

/-- `bbWalk` only ever fails with `badPred` or `fuelOut`. -/
theorem bbWalk_err {pf : ℕ → Option ℕ} {visited : List ℕ} :
    ∀ {fuel v : ℕ} {e : Err}, bbWalk pf visited fuel v = .error e →
      e = .badPred ∨ e = .fuelOut := by
  intro fuel
  induction fuel with
  | zero =>
    intro v e h
    rw [bbWalk] at h
    exact Or.inr (Except.error.inj h).symm
  | succ fuel ih =>
    intro v e h
    rw [bbWalk] at h
    split at h
    · exact absurd h (by simp)
    · match h2 : pf v with
      | some u => rw [h2] at h; exact ih h
      | none => rw [h2] at h; exact Or.inl (Except.error.inj h).symm

/-- `get_path_go` only ever fails with `badPred` or `fuelOut`. -/
theorem get_path_go_err (t : ℕ) (pf : ℕ → Option ℕ) :
    ∀ (fuel p : ℕ) (acc : List ℕ) (e : Err),
      get_path_go t pf fuel p acc = .error e → e = .badPred ∨ e = .fuelOut
  | 0, p, acc, e, h => by
    rw [get_path_go] at h
    exact Or.inr (Except.error.inj h).symm
  | fuel+1, p, acc, e, h => by
    rw [get_path_go] at h
    split at h
    · exact absurd h (by simp)
    · match h2 : pf p with
      | some q => rw [h2] at h; exact get_path_go_err t pf fuel q (p :: acc) e h
      | none => rw [h2] at h; exact Or.inl (Except.error.inj h).symm

/-- Inversion for the error outcomes of one iteration: the only error raised
while a target exists and its `root_ds` entry is finite is never
`targetUnreachable`. -/
theorem stepE_error_spec {G : SGraph α} {rds : ℕ → Option α}
    {rpred : ℕ → Option ℕ} {invd : α} {s : TState α} {e : Err}
    (h : stepE G rds rpred invd s = .error e) :
    (selectTarget G rds s.valid = none ∧ e = .allNaN) ∨
      ∃ target tval, selectTarget G rds s.valid = some (target, tval) ∧
        ((rds target = none ∧ e = .targetUnreachable) ∨
          ∃ dt, rds target = some dt ∧ e ≠ .targetUnreachable) := by
  unfold stepE at h
  split at h
  · rename_i heq1
    exact Or.inl ⟨heq1, (Except.error.inj h).symm⟩
  · rename_i r target tval heq1
    refine Or.inr ⟨target, tval, heq1, ?_⟩
    split at h
    · rename_i heq2
      exact Or.inl ⟨heq2, (Except.error.inj h).symm⟩
    · rename_i dt heq2
      refine Or.inr ⟨dt, heq2, ?_⟩
      split at h
      · rename_i e2 heq3
        rw [← Except.error.inj h]
        rcases bbWalk_err heq3 with rfl | rfl
        · decide
        · decide
      · rename_i bb heq3
        split at h
        · rw [← Except.error.inj h]; decide
        · rename_i db heq4
          split at h
          · rw [← Except.error.inj h]; decide
          · split at h
            · rw [← Except.error.inj h]; decide
            · rename_i branch heq5
              split at h
              · rename_i e2 heq6
                rw [← Except.error.inj h]
                rcases get_path_go_err target _ (G.n + 1) branch [] e2 heq6
                  with rfl | rfl
                · decide
                · decide
              · rename_i path heq6
                split at h
                · rw [← Except.error.inj h]; decide
                · split at h
                  · rw [← Except.error.inj h]; decide
                  · exact absurd h (by simp)

/-- The unreachable-target error is raised exactly when the selected target's
`root_ds` entry is infinite. -/
theorem stepE_targetUnreachable_iff {G : SGraph α} {rds : ℕ → Option α}
    {rpred : ℕ → Option ℕ} {invd : α} {s : TState α} {target : ℕ}
    {tval : Option α}
    (hsel : selectTarget G rds s.valid = some (target, tval)) :
    stepE G rds rpred invd s = .error .targetUnreachable ↔
      rds target = none := by
  constructor
  · intro h
    rcases stepE_error_spec h with ⟨hnone, _⟩ | ⟨t2, v2, hsel2, hcase⟩
    · rw [hsel] at hnone; exact absurd hnone (by simp)
    · rw [hsel] at hsel2
      obtain ⟨ht, _⟩ := Prod.mk.inj (Option.some_inj.mp hsel2)
      subst ht
      rcases hcase with ⟨hd, _⟩ | ⟨dt, _, hne⟩
      · exact hd
      · exact absurd rfl hne
  · intro h
    match h0 : stepE G rds rpred invd s with
    | .ok s2 =>
      obtain ⟨t2, v2, dt, _, _, _, _, _, hsel2, hdt, _⟩ := step_spec h0
      rw [hsel] at hsel2
      obtain ⟨ht, _⟩ := Prod.mk.inj (Option.some_inj.mp hsel2)
      subst ht
      rw [h] at hdt
      exact absurd hdt (by simp)
    | .error e =>
      rcases stepE_error_spec h0 with ⟨hnone, _⟩ | ⟨t2, v2, hsel2, hcase⟩
      · rw [hsel] at hnone; exact absurd hnone (by simp)
      · rw [hsel] at hsel2
        obtain ⟨ht, _⟩ := Prod.mk.inj (Option.some_inj.mp hsel2)
        subst ht
        rcases hcase with ⟨_, rfl⟩ | ⟨dt, hdt, _⟩
        · rfl
        · rw [h] at hdt; exact absurd hdt (by simp)

/-- `argmaxList` returns the first index attaining the maximum. -/
theorem argmaxList_eq_of :
    ∀ (xs : List (Option α)) (i : ℕ) (v : Option α),
      xs[i]? = some v →
      (∀ (j : ℕ) (y : Option α), xs[j]? = some y → ole y v) →
      (∀ (j : ℕ) (y : Option α), j < i → xs[j]? = some y → olt y v) →
      argmaxList xs = some (i, v)
  | [], i, v, hi, _, _ => by simp at hi
  | x :: xs, 0, v, hi, hmax, _ => by
    simp only [List.getElem?_cons_zero] at hi
    cases Option.some_inj.mp hi
    rw [argmaxList]
    match h2 : argmaxList xs with
    | none => rfl
    | some (j, u) =>
      have hu := argmaxList_get xs j u h2
      have hle : ole u x := hmax (j + 1) u (by simpa using hu)
      show (if olt x u then some (j + 1, u) else some (0, x)) = some (0, x)
      rw [if_neg (not_olt_iff_ole.mpr hle)]
  | x :: xs, i+1, v, hi, hmax, hfirst => by
    simp only [List.getElem?_cons_succ] at hi
    have ih := argmaxList_eq_of xs i v hi
      (fun j y hj => hmax (j + 1) y (by simpa using hj))
      (fun j y hji hj => hfirst (j + 1) y (by omega) (by simpa using hj))
    rw [argmaxList, ih]
    have hx : olt x v := hfirst 0 x (by omega) (by simp)
    show (if olt x v then some (i + 1, v) else some (0, x)) = some (i + 1, v)
    rw [if_pos hx]

theorem findIdx_go :
    ∀ (l : List Bool) (s i : ℕ), l.getD s false = true →
      (∀ j, j < s → l.getD j false = false) →
      List.findIdx? (fun b => b) l i = some (i + s)
  | [], s, i, hs, _ => by simp at hs
  | x :: t, 0, i, hs, _ => by
    rw [List.findIdx?_cons]
    rw [if_pos (by simpa using hs)]
    simp
  | x :: t, s+1, i, hs, hfirst => by
    rw [List.findIdx?_cons]
    rw [if_neg (by simpa using hfirst 0 (Nat.succ_pos s))]
    rw [findIdx_go t s (i + 1) (by simpa using hs)
      (fun j hj => by simpa using hfirst (j + 1) (by omega))]
    congr 1
    omega

/-- `np.where(valid)[0][0]` is the first index holding `true`. -/
theorem findIdx_first {l : List Bool} {s : ℕ} (hs : l.getD s false = true)
    (hfirst : ∀ j, j < s → l.getD j false = false) :
    l.findIdx? (fun b => b) = some s := by
  have := findIdx_go l s 0 hs hfirst
  simpa using this

/-- The `while 1` loop exits as soon as the masked argmax does not strictly
improve, returning the current bests with `pred`/`dist` as last written. -/
theorem ffp_go_stop {G : SGraph α} {valid : List Bool} {fuel cur best calls : ℕ}
    {maxd : Option α} {pr : Option (ℕ → Option ℕ)} {di : Option (ℕ → Option α)}
    {far : ℕ} {cd : Option α}
    (hlen : valid.length = G.n)
    (hmax : argmaxList ((List.range G.n).map (fun v =>
      if valid.getD v false then sdist G [cur] v else some (-1))) =
      some (far, cd))
    (hstop : ¬ olt maxd cd) :
    ffp_go G valid (fuel + 1) cur best maxd pr di calls =
      .ok ⟨best, cur, pr, maxd, di, calls + 1⟩ := by
  rw [ffp_go, if_neg (by rw [hlen]; simp)]
  simp only [hmax]
  rw [if_neg hstop]

/-- When the starting vertex is the only valid vertex, the first dijkstra's
masked argmax is the start itself at distance `0`, so the loop stops after
one call with `pred = None` and `dist = None`. -/
theorem ffp_single_valid (G : SGraph α) (hn : G.Nonneg) {vv : List Bool}
    {s : ℕ} (hlen : vv.length = G.n) (hs : s < G.n)
    (hvs : vv.getD s false = true)
    (huniq : ∀ v, v < G.n → vv.getD v false = true → v = s) :
    find_far_points_graph G (some vv) = .ok ⟨s, s, none, some 0, none, 1⟩ := by
  have hfind : vv.findIdx? (fun b => b) = some s := by
    refine findIdx_first hvs ?_
    intro j hj
    by_contra hb
    rw [Bool.not_eq_false] at hb
    exact absurd (huniq j (lt_trans hj hs) hb) (by omega)
  have hgetl : ∀ (j : ℕ), j < G.n →
      ((List.range G.n).map (fun v =>
        if vv.getD v false then sdist G [s] v else some (-1)))[j]? =
      some (if vv.getD j false then sdist G [s] j else some (-1)) := by
    intro j hj
    rw [List.getElem?_map, List.getElem?_range hj]
    rfl
  have hlenl : ((List.range G.n).map (fun v =>
      if vv.getD v false then sdist G [s] v else some (-1))).length = G.n := by
    rw [List.length_map, List.length_range]
  have hss : sdist G [s] s = some 0 := sdist_source G hn (by simp) hs
  have hmax : argmaxList ((List.range G.n).map (fun v =>
      if vv.getD v false then sdist G [s] v else some (-1))) =
      some (s, some 0) := by
    refine argmaxList_eq_of _ s (some 0) ?_ ?_ ?_
    · rw [hgetl s hs, hvs, if_pos rfl, hss]
    · intro j y hj
      obtain ⟨hlt, _⟩ := List.getElem?_eq_some_iff.mp hj
      rw [hlenl] at hlt
      rw [hgetl j hlt] at hj
      have hy := (Option.some_inj.mp hj).symm
      subst hy
      rcases hb : vv.getD j false with _ | _
      · rw [if_neg (by simp)]
        show ole (some (-1)) (some 0)
        rw [ole_some_iff]
        norm_num
      · have hjs : j = s := huniq j hlt hb
        subst hjs
        rw [if_pos rfl, hss]
        exact ole_refl _
    · intro j y hj hget
      have hjlt : j < G.n := lt_trans hj hs
      rw [hgetl j hjlt] at hget
      have hy := (Option.some_inj.mp hget).symm
      subst hy
      have hb : vv.getD j false = false := by
        by_contra hb2
        rw [Bool.not_eq_false] at hb2
        exact absurd (huniq j hjlt hb2) (by omega)
      rw [if_neg (by rw [hb]; simp)]
      show olt (some (-1)) (some 0)
      rw [olt_some_iff]
      norm_num
  show (match vv.findIdx? (fun b => b) with
    | none => (.error .idxErr : Except Err (FfpOut α))
    | some s₀ => ffp_go G vv (G.n + 2) s₀ s₀ (some 0) none none 0) =
    .ok ⟨s, s, none, some 0, none, 1⟩
  rw [hfind]
  show ffp_go G vv (G.n + 1 + 1) s s (some 0) none none 0 =
    .ok ⟨s, s, none, some 0, none, 1⟩
  rw [ffp_go_stop hlen hmax (by simp [olt])]

/-- Shape validation of `create_spatial_csgraph`: bad vertex arrays. -/
theorem create_csgraph_badVerts {norm : List α → α} {vertices : NDArray α}
    {edges : NDArray ℕ} {ew dir : Bool}
    (h : vertices.shape.length ≠ 2 ∨ vertices.shape.getD 1 0 < 1) :
    create_spatial_csgraph norm vertices edges ew dir = .error .badVerts := by
  unfold create_spatial_csgraph
  rw [if_pos h]

/-- Shape validation of `create_spatial_csgraph`: bad edge arrays. -/
theorem create_csgraph_badEdges {norm : List α → α} {vertices : NDArray α}
    {edges : NDArray ℕ} {ew dir : Bool}
    (hv : ¬ (vertices.shape.length ≠ 2 ∨ vertices.shape.getD 1 0 < 1))
    (he : edges.shape.length ≠ 2 ∨ edges.shape.getD 1 0 ≠ 2) :
    create_spatial_csgraph norm vertices edges ew dir = .error .badEdges := by
  unfold create_spatial_csgraph
  rw [if_neg hv, if_pos he]

/-- Self-loops are silently dropped: the produced graph never carries weight
on the diagonal, and in particular self-loop input is *not* rejected. -/
theorem create_csgraph_w_self {norm : List α → α} {vertices : NDArray α}
    {edges : NDArray ℕ} {ew dir : Bool} {g : SGraph α}
    (h : create_spatial_csgraph norm vertices edges ew dir = .ok g) :
    ∀ u, g.w u u = 0 := by
  unfold create_spatial_csgraph at h
  split at h
  · exact absurd h (by simp)
  · split at h
    · exact absurd h (by simp)
    · intro u
      rw [← Except.ok.inj h]
      refine List.sum_eq_zero ?_
      intro x hx
      obtain ⟨e, he, rfl⟩ := List.mem_map.mp hx
      have hne : e.1 ≠ e.2 := by
        have h2 := (List.mem_filter.mp he).2
        exact of_decide_eq_true h2
      rw [if_neg (fun hc => hne (hc.1.trans hc.2.symm)),
        if_neg (fun hc => hne (hc.2.1.trans hc.2.2.symm))]
      exact add_zero 0

/-!
## Concrete instances used by the witnesses and counterexamples
-/

/-- A single edge `0 — 1` of weight `1`. -/
def P2 : SGraph ℤ :=
  ⟨2, fun u v => if (u = 0 ∧ v = 1) ∨ (u = 1 ∧ v = 0) then 1 else 0⟩

/-- Two isolated vertices (no edges). -/
def D2 : SGraph ℤ := ⟨2, fun _ _ => 0⟩

/-- A single isolated vertex. -/
def G1 : SGraph ℤ := ⟨1, fun _ _ => 0⟩

/-- A well-shaped `2 × 1` vertex array. -/
def Vt2 : NDArray ℤ := ⟨[2, 1], [0, 1]⟩

/-- A well-shaped `1 × 2` edge array holding the single self-loop `(0, 0)`. -/
def EsLoop : NDArray ℕ := ⟨[1, 2], [0, 0]⟩

/-- A mask whose valid vertices all lie in the root's component can be
extended beyond the mask's length without changing reachability. -/
theorem reach_of_bounded {G : SGraph α} {root : ℕ} {valid0 : List Bool}
    (hlen : valid0.length = G.n)
    (hreach : ∀ v, v < G.n → valid0.getD v false = true →
      sdist G [root] v ≠ none) :
    ∀ v, valid0.getD v false = true → sdist G [root] v ≠ none := by
  intro v hv
  by_cases hvlt : v < G.n
  · exact hreach v hvlt hv
  · exfalso
    rw [List.getD_eq_default] at hv
    · exact absurd hv (by simp)
    · omega

/-!
## The claims
-/

/-- C1: for an undirected graph with non-negative weights, a root inside the
graph, a correct-length mask confined to the root's component, and a
non-negative invalidation radius, `graph_teasar_component` terminates with a
result in which every initially valid vertex is within `invalidation_d` of
some vertex of some recorded path (vertices on a path are at distance `0`). -/
theorem C1_coverage (G : SGraph α) (hn : G.Nonneg) (hsym : G.Symm)
    (root : ℕ) (valid0 : List Bool) (invd : α)
    (hroot : root < G.n) (hlen : valid0.length = G.n) (hinvd : 0 ≤ invd)
    (hreach : ∀ v, v < G.n → valid0.getD v false = true →
      sdist G [root] v ≠ none) :
    ∃ sf, graph_teasar_component G root (some valid0) none none invd =
        .ok sf ∧
      ∀ v, valid0.getD v false = true →
        ∃ p ∈ sf.paths, ∃ u ∈ p, ole (sdist G [u] v) (some invd) := by
  have hio := component_init_succeeds hlen (reach_of_bounded hlen hreach)
  have hinit : Inv G root (init_state
      ⟨dijkstraDs G root, dijkstraPredArr G root, valid0⟩ root) :=
    init_state_inv hroot hio
  obtain ⟨sf, hrun, _⟩ := teasar_run_ok G hn hsym hinvd (countTrue valid0 + 1)
    (init_state ⟨dijkstraDs G root, dijkstraPredArr G root, valid0⟩ root)
    hinit (Nat.lt_succ_self _)
  refine ⟨sf, ?_, ?_⟩
  · show (match (component_init G root (some valid0) none none).2 with
      | .error e => (.error e : Except Err (TState α))
      | .ok io => teasar_run G io.rds io.rpred invd (countTrue io.valid + 1)
          (init_state io root)) = .ok sf
    rw [hio]
    exact hrun
  · intro v hv
    exact teasar_run_coverage G hn (show valid0.length = G.n from hlen)
      hrun v hv

/-- C2: under the same preconditions, the valid mask only ever moves
`true → false`, the count of valid vertices strictly decreases in every
iteration (the selected target itself, at distance zero from the new path,
is invalidated), and the loop terminates with the count at zero. -/
theorem C2_monotone_termination (G : SGraph α) (hn : G.Nonneg) (hsym : G.Symm)
    (root : ℕ) (valid0 : List Bool) (invd : α)
    (hroot : root < G.n) (hlen : valid0.length = G.n) (hinvd : 0 ≤ invd)
    (hreach : ∀ v, v < G.n → valid0.getD v false = true →
      sdist G [root] v ≠ none) :
    (∃ sf, graph_teasar_component G root (some valid0) none none invd =
        .ok sf ∧ countTrue sf.valid = 0) ∧
    ∀ k s s2, reach_state G root valid0 invd k = some s →
      reach_state G root valid0 invd (k + 1) = some s2 →
      (∀ v, s2.valid.getD v false = true → s.valid.getD v false = true) ∧
      countTrue s2.valid < countTrue s.valid ∧
      ∃ target tval path,
        selectTarget G (dijkstraDs G root) s.valid = some (target, tval) ∧
        s2.paths = s.paths ++ [path] ∧ path.headD 0 = target ∧
        sdist G path target = some 0 ∧
        s2.valid.getD target false = false := by
  constructor
  · have hio := component_init_succeeds hlen (reach_of_bounded hlen hreach)
    have hinit : Inv G root (init_state
        ⟨dijkstraDs G root, dijkstraPredArr G root, valid0⟩ root) :=
      init_state_inv hroot hio
    obtain ⟨sf, hrun, hcount⟩ := teasar_run_ok G hn hsym hinvd
      (countTrue valid0 + 1)
      (init_state ⟨dijkstraDs G root, dijkstraPredArr G root, valid0⟩ root)
      hinit (Nat.lt_succ_self _)
    refine ⟨sf, ?_, hcount⟩
    show (match (component_init G root (some valid0) none none).2 with
      | .error e => (.error e : Except Err (TState α))
      | .ok io => teasar_run G io.rds io.rpred invd (countTrue io.valid + 1)
          (init_state io root)) = .ok sf
    rw [hio]
    exact hrun
  · intro k s s2 hk hk2
    obtain ⟨s', hs', hz, hstep⟩ := reach_succ hk2
    rw [hk] at hs'
    cases Option.some_inj.mp hs'
    have hInv := reach_inv G hn hroot k s hk
    refine ⟨step_valid_mono hstep,
      step_count_lt G hn hInv (Nat.pos_of_ne_zero hz) hstep, ?_⟩
    obtain ⟨target, tval, dt, bb, db, branch, path, plen, heq1, heq2, heq3,
      heq4, hlim, heq5, heq6, heq7, hinvd2, hvalid2, hvis2, hpaths2, hplens2,
      hmd2, hmm2⟩ := step_spec hstep
    obtain ⟨htlt, _⟩ := target_of_select heq1
    obtain ⟨hpne, hph, hpl, hpch, hpnd, hplt, hpstr⟩ := path_facts G heq6
    have htmem : target ∈ path := by rw [← hph]; exact headD_mem hpne
    have hsd0 : sdist G path target = some 0 := sdist_source G hn htmem htlt
    refine ⟨target, tval, path, heq1, hpaths2, hph, hsd0, ?_⟩
    rw [hvalid2, range_map_getD, if_pos htlt,
      limDist_of_sdist hsd0 (not_lt.mp hinvd2)]
    simp

/-- C3: whatever arguments `graph_teasar_component` is run with, in any
normally returned result every consecutive pair on every path is an edge of
the graph, and every recorded length is the exact shortest-path distance
between the path's first and last vertices. -/
theorem C3_path_exactness (G : SGraph α) (hn : G.Nonneg) (root : ℕ)
    (valid? : Option (List Bool)) (rds? : Option (ℕ → Option α))
    (rpred? : Option (ℕ → Option ℕ)) (invd : α)
    (ps : List (List ℕ)) (ls : List α)
    (h : (graph_teasar_component G root valid? rds? rpred? invd).toOption.map
      (fun s => (s.paths, s.plens)) = some (ps, ls)) :
    List.Forall₂ (PathSpec G) ps ls := by
  match h0 : graph_teasar_component G root valid? rds? rpred? invd with
  | .error e =>
    rw [h0] at h
    exact absurd h (by simp [Except.toOption])
  | .ok sf =>
    rw [h0] at h
    have h2 : (sf.paths, sf.plens) = (ps, ls) := by
      have h3 : some (sf.paths, sf.plens) = some (ps, ls) := h
      exact Option.some_inj.mp h3
    obtain ⟨hps, hls⟩ := Prod.mk.inj h2
    subst hps
    subst hls
    unfold graph_teasar_component at h0
    split at h0
    · exact absurd h0 (by simp)
    · exact teasar_run_pathspec G hn h0 List.Forall₂.nil

/-- C4: at every loop iteration reached with `root_ds`/`root_pred` computed
from the root, the branch-bound walk lands on a visited vertex `bb` with
`root_ds[bb] ≤ root_ds[target]`, the radius `root_ds[target] − root_ds[bb]`
bounds the distance from the target to that visited vertex, and the chosen
branch's radius-limited distance is finite, so the `ds[branch]` assertion
holds and the iteration completes. -/
theorem C4_radius_bound (G : SGraph α) (hn : G.Nonneg) (hsym : G.Symm)
    (root : ℕ) (valid0 : List Bool) (invd : α)
    (hroot : root < G.n) (hinvd : 0 ≤ invd) :
    ∀ k s, reach_state G root valid0 invd k = some s →
      countTrue s.valid ≠ 0 →
      ∃ s2 target tval dt bb db branch plen,
        stepE G (dijkstraDs G root) (dijkstraPredArr G root) invd s =
          .ok s2 ∧
        selectTarget G (dijkstraDs G root) s.valid = some (target, tval) ∧
        sdist G [root] target = some dt ∧
        bbWalk (dijkstraPredArr G root) s.visited (G.n + 1) target = .ok bb ∧
        bb ∈ s.visited ∧
        sdist G [root] bb = some db ∧ db ≤ dt ∧
        ole (sdist G [target] bb) (some (dt - db)) ∧
        argminList (fun v => limDist G [target] (dt - db) v) s.visited =
          some branch ∧
        limDist G [target] (dt - db) branch = some plen := by
  intro k s hk hz
  have hInv := reach_inv G hn hroot k s hk
  obtain ⟨s2, hstep⟩ := step_progress G hn hsym hinvd hInv
    (Nat.pos_of_ne_zero hz)
  obtain ⟨target, tval, dt, bb, db, branch, path, plen, heq1, heq2, heq3,
    heq4, hlim, heq5, heq6, heq7, _, _⟩ := step_spec hstep
  have hdt : sdist G [root] target = some dt := heq2
  have hdb : sdist G [root] bb = some db := heq4
  have heq3' : bbWalk (dijPred G [root]) s.visited (G.n + 1) target =
      .ok bb := heq3
  obtain ⟨db', hdb', hle, hbnd⟩ := bbWalk_bound G hn hsym root s.visited
    (G.n + 1) target bb dt heq3' hdt
  have hdbeq : db' = db := Option.some_inj.mp (hdb'.symm.trans hdb)
  rw [hdbeq] at hle hbnd
  exact ⟨s2, target, tval, dt, bb, db, branch, plen, hstep, heq1, hdt, heq3,
    bbWalk_mem heq3, hdb, hle, hbnd, heq5, heq7⟩

/-- C5 counterexample: in the first iteration of
`graph_teasar_component P2 1 [false, true]`, every valid vertex is at
distance `0` from the root, the product array is `[1·0, 0·1] = [0, 0]`, and
`nanargmax` selects vertex `0` — whose valid-mask entry is `false`.  The
claim that the selected target always has a `true` valid-mask entry is
refuted. -/
theorem C5_counterexample :
    reach_state P2 1 [false, true] 1 0 =
      some ⟨[false, true], [1], [], [], fun _ => none, fun _ => none⟩ ∧
    selectTarget P2 (dijkstraDs P2 1) [false, true] = some (0, some 0) ∧
    ([false, true] : List Bool).getD 0 false = false :=
  ⟨rfl, by decide, by decide⟩

/-- C5 amended: if some valid vertex lies at strictly positive distance from
the root, the selected target is valid, its distance is maximal among valid
vertices, ties break to the first such index, and the unreachable-target
error is raised exactly when the selected target's distance is infinite. -/
theorem C5_target_selection (G : SGraph α) (rds : ℕ → Option α)
    (rpred : ℕ → Option ℕ) (invd : α) (s : TState α)
    (hex : ∃ v, v < G.n ∧ s.valid.getD v false = true ∧
      olt (some 0) (rds v)) :
    ∃ target tval, selectTarget G rds s.valid = some (target, tval) ∧
      s.valid.getD target false = true ∧ tval = rds target ∧
      (∀ u, u < G.n → s.valid.getD u false = true →
        ole (rds u) (rds target)) ∧
      (∀ u, u < target → s.valid.getD u false = true →
        olt (rds u) (rds target)) ∧
      (stepE G rds rpred invd s = .error .targetUnreachable ↔
        rds target = none) := by
  obtain ⟨v, hvlt, hvv, hvpos⟩ := hex
  have hentry : (products G rds s.valid)[v]? = some (productVal (rds v) true) := by
    rw [products_get G rds s.valid hvlt, hvv]
  have hsome : (nanargmax (products G rds s.valid)).isSome := by
    rw [productVal_true] at hentry
    exact nanargmax_isSome _ v (rds v) hentry
  obtain ⟨⟨target, tval⟩, hsel⟩ := Option.isSome_iff_exists.mp hsome
  obtain ⟨htlt, hprod⟩ := target_of_select hsel
  have hvt : s.valid.getD target false = true := by
    by_contra hvt2
    rw [Bool.not_eq_true] at hvt2
    rw [hvt2] at hprod
    obtain ⟨_, htv0⟩ := productVal_some_of_false hprod
    subst htv0
    have hlev : ole (rds v) (some 0) := by
      refine nanargmax_le _ target (some 0) hsel v (rds v) ?_
      rw [hentry, productVal_true]
    exact absurd hvpos (not_olt_iff_ole.mpr hlev)
  have htv : tval = rds target := by
    rw [hvt, productVal_true] at hprod
    exact (Option.some_inj.mp hprod).symm
  subst htv
  refine ⟨target, rds target, hsel, hvt, rfl, ?_, ?_,
    stepE_targetUnreachable_iff hsel⟩
  · intro u hu hvu
    refine nanargmax_le _ target (rds target) hsel u (rds u) ?_
    rw [products_get G rds s.valid hu, hvu, productVal_true]
  · intro u hu hvu
    have hult : u < G.n := lt_trans hu htlt
    refine nanargmax_first _ target (rds target) hsel u hu (rds u) ?_
    rw [products_get G rds s.valid hult, hvu, productVal_true]

/-- C6: when the vertex-to-skeleton map is tracked, at every reached loop
state the recorded distance equals the minimum over all sweeps so far of the
radius-limited distance to that sweep's path, with the source attributed to
a vertex of one such path attaining it; and an entry changes in an iteration
only by strictly decreasing to the new sweep's distance. -/
theorem C6_skeleton_map (G : SGraph α) (hn : G.Nonneg) (root : ℕ)
    (valid0 : List Bool) (invd : α) :
    (∀ k s, reach_state G root valid0 invd k = some s → ∀ v,
      s.mdist v = sweepMin G invd s.paths v ∧
      (s.mdist v ≠ none → ∃ u p, s.mmap v = some u ∧ p ∈ s.paths ∧ u ∈ p ∧
        sdist G [u] v = s.mdist v ∧ limDist G p invd v = s.mdist v)) ∧
    ∀ k s s2, reach_state G root valid0 invd k = some s →
      reach_state G root valid0 invd (k + 1) = some s2 → ∀ v,
      (s2.mdist v = s.mdist v ∧ s2.mmap v = s.mmap v) ∨
        (olt (s2.mdist v) (s.mdist v) ∧ ∃ path,
          s2.paths = s.paths ++ [path] ∧
          s2.mdist v = limDist G path invd v) := by
  constructor
  · intro k s hk v
    obtain ⟨h1, h2, _⟩ := reach_mapinv G hn k s hk v
    exact ⟨h1, h2⟩
  · intro k s s2 hk hk2 v
    obtain ⟨s', hs', _, hstep⟩ := reach_succ hk2
    rw [hk] at hs'
    cases Option.some_inj.mp hs'
    obtain ⟨target, tval, dt, bb, db, branch, path, plen, _, _, _, _, _, _,
      _, _, _, _, _, hpaths2, _, hmd2, hmm2⟩ := step_spec hstep
    have hmd2v : s2.mdist v =
        if olt (limDist G path invd v) (s.mdist v) then limDist G path invd v
        else s.mdist v := by rw [hmd2]
    have hmm2v : s2.mmap v =
        if olt (limDist G path invd v) (s.mdist v) then srcAttrib G path invd v
        else s.mmap v := by rw [hmm2]
    by_cases hover : olt (limDist G path invd v) (s.mdist v)
    · right
      rw [if_pos hover] at hmd2v
      exact ⟨by rw [hmd2v]; exact hover, path, hpaths2, hmd2v⟩
    · left
      rw [if_neg hover] at hmd2v
      rw [if_neg hover] at hmm2v
      exact ⟨hmd2v, hmm2v⟩

/-- C7 counterexample: on two isolated vertices with both valid, the
starting valid vertex `0` has no other valid vertex at positive *finite*
distance, yet the loop does not stop after the first dijkstra: the masked
argmax hits the unreachable vertex at distance `∞ > 0`, a second dijkstra
runs, and the function returns `max_distance = ∞`, not `0`. -/
theorem C7_counterexample :
    (find_far_points_graph D2 (some [true, true])).toOption.map
      (fun o => (o.best, o.far, o.maxd, o.calls)) =
      some (0, 1, (none : Option ℤ), 2) ∧
    (none : Option ℤ) ≠ some 0 ∧ (2 : ℕ) ≠ 1 :=
  ⟨by decide, by decide, by decide⟩

/-- C7 amended: when the starting valid vertex is the *only* valid vertex,
the loop does stop after the first dijkstra call with `max_distance = 0`,
but it returns `pred = None` and `dist = None` rather than the first call's
arrays, because the improving branch that stores them never runs. -/
theorem C7_single_vertex (G : SGraph α) (hn : G.Nonneg) (vv : List Bool)
    (s : ℕ) (hlen : vv.length = G.n) (hs : s < G.n)
    (hvs : vv.getD s false = true)
    (huniq : ∀ v, v < G.n → vv.getD v false = true → v = s) :
    find_far_points_graph G (some vv) = .ok ⟨s, s, none, some 0, none, 1⟩ :=
  ffp_single_valid G hn hlen hs hvs huniq

/-- C8 counterexample: with a wrong-length mask and no precomputed
`root_ds`, initialization performs one dijkstra (the call count, first
component) before raising the mask-length error — not zero as the claim's
"before any shortest-path computation" requires. -/
theorem C8_counterexample :
    component_init G1 0 (some [true, true]) none none =
      ((1 : ℕ), (.error .maskLen : Except Err (InitOut ℤ))) ∧
    (1 : ℕ) ≠ 0 :=
  ⟨rfl, by decide⟩

/-- C8 amended: a wrong-length mask always aborts the call with the
mask-length error, but the dijkstra from the root is skipped only when
`root_ds` is supplied; when it is not, exactly one dijkstra runs first. -/
theorem C8_mask_length (G : SGraph α) (root : ℕ) (vv : List Bool)
    (rds : ℕ → Option α) (rpred : ℕ → Option ℕ) (invd : α)
    (hlen : vv.length ≠ G.n) :
    component_init G root (some vv) (some rds) (some rpred) =
      (0, .error .maskLen) ∧
    component_init G root (some vv) none none = (1, .error .maskLen) ∧
    graph_teasar_component G root (some vv) (some rds) (some rpred) invd =
      .error .maskLen ∧
    graph_teasar_component G root (some vv) none none invd =
      .error .maskLen := by
  have h1 : component_init G root (some vv) (some rds) (some rpred) =
      (if vv.length ≠ G.n then
        ((0 : ℕ), (.error .maskLen : Except Err (InitOut α)))
      else if (List.range G.n).any
          (fun v => decide (rds v = none) && vv.getD v false) then
        (0, .error .unreachableValid)
      else (0, .ok ⟨rds, rpred, vv⟩)) := rfl
  have h2 : component_init G root (some vv) none none =
      (if vv.length ≠ G.n then
        ((1 : ℕ), (.error .maskLen : Except Err (InitOut α)))
      else if (List.range G.n).any
          (fun v => decide (dijkstraDs G root v = none) && vv.getD v false)
        then (1, .error .unreachableValid)
      else (1, .ok ⟨dijkstraDs G root, dijkstraPredArr G root, vv⟩)) := rfl
  have h3 : component_init G root (some vv) (some rds) (some rpred) =
      (0, .error .maskLen) := by rw [h1, if_pos hlen]
  have h4 : component_init G root (some vv) none none =
      (1, .error .maskLen) := by rw [h2, if_pos hlen]
  refine ⟨h3, h4, ?_, ?_⟩
  · show (match (component_init G root (some vv) (some rds)
        (some rpred)).2 with
      | .error e => (.error e : Except Err (TState α))
      | .ok io => teasar_run G io.rds io.rpred invd (countTrue io.valid + 1)
          (init_state io root)) = .error .maskLen
    rw [h3]
  · show (match (component_init G root (some vv) none none).2 with
      | .error e => (.error e : Except Err (TState α))
      | .ok io => teasar_run G io.rds io.rpred invd (countTrue io.valid + 1)
          (init_state io root)) = .error .maskLen
    rw [h4]

/-- C9 counterexample: a well-shaped input whose only edge is the self-loop
`(0, 0)` is *not* rejected: `create_spatial_csgraph` succeeds (the loop is
silently filtered out), refuting the claim that self-loop edges cause an
error. -/
theorem C9_counterexample :
    (create_spatial_csgraph (fun _ => (0 : ℤ)) Vt2 EsLoop false
      false).toOption.map (fun g => g.n) = some 2 ∧
    (EsLoop.row 0).getD 0 0 = (EsLoop.row 0).getD 1 0 :=
  ⟨by decide, by decide⟩

/-- C9 amended: malformed vertex arrays (not 2-D `N×K`, `K ≥ 1`) and
malformed edge arrays (not 2-D `M×2`) are rejected with errors, exactly as
claimed; self-loop edges, however, are silently filtered rather than
rejected, and any successfully built graph carries no diagonal weight. -/
theorem C9_shape_and_loops (norm : List α → α) (vertices : NDArray α)
    (edges : NDArray ℕ) (ew dir : Bool) :
    (vertices.shape.length ≠ 2 ∨ vertices.shape.getD 1 0 < 1 →
      create_spatial_csgraph norm vertices edges ew dir =
        .error .badVerts) ∧
    (¬ (vertices.shape.length ≠ 2 ∨ vertices.shape.getD 1 0 < 1) →
      edges.shape.length ≠ 2 ∨ edges.shape.getD 1 0 ≠ 2 →
      create_spatial_csgraph norm vertices edges ew dir =
        .error .badEdges) ∧
    ∀ g, create_spatial_csgraph norm vertices edges ew dir = .ok g →
      ∀ u, g.w u u = 0 :=
  ⟨fun hv => create_csgraph_badVerts hv,
   fun hv he => create_csgraph_badEdges hv he,
   fun _ hg => create_csgraph_w_self hg⟩

/-- C10: when the root is invalid on entry (as the driver ensures), every
reached loop state keeps `visited_nodes` duplicate-free and entirely
invalid, every recorded path has at least two distinct vertices, and a
selected target with finite root distance is never an already-visited
vertex. -/
theorem C10_visited_invariant (G : SGraph α) (hn : G.Nonneg) (root : ℕ)
    (valid0 : List Bool) (invd : α) (hroot : root < G.n)
    (hr0 : valid0.getD root false = false) :
    ∀ k s, reach_state G root valid0 invd k = some s →
      (∀ v ∈ s.visited, s.valid.getD v false = false) ∧
      s.visited.Nodup ∧
      (∀ p ∈ s.paths, 2 ≤ p.length ∧ p.Nodup) ∧
      ∀ target tval dt, countTrue s.valid ≠ 0 →
        selectTarget G (dijkstraDs G root) s.valid = some (target, tval) →
        sdist G [root] target = some dt → target ∉ s.visited := by
  intro k s hk
  have hInv := reach_inv G hn hroot k s hk
  obtain ⟨hnd, hinvalid, hpaths⟩ := reach_inv2 G hn hroot hr0 k s hk
  refine ⟨hinvalid, hnd, hpaths, ?_⟩
  intro target tval dt hz hsel hdt hmem
  rcases target_case G hn hInv (Nat.pos_of_ne_zero hz) hsel hdt with
    hvt | ⟨_, hvr, _, _⟩
  · rw [hinvalid target hmem] at hvt
    exact absurd hvt (by simp)
  · rw [hinvalid root hInv.rootmem] at hvr
    exact absurd hvr (by simp)

/-!
## Witnesses
-/

/-- The initial loop state of `graph_teasar_component P2 0 [true, true]`. -/
def sTT : TState ℤ := ⟨[true, true], [0], [], [], fun _ => none, fun _ => none⟩

theorem C1_coverage_witness :
    (P2.Nonneg ∧ P2.Symm ∧ 0 < P2.n ∧
      ([true, true] : List Bool).length = P2.n ∧ (0 : ℤ) ≤ 0 ∧
      ∀ v, v < P2.n → ([true, true] : List Bool).getD v false = true →
        sdist P2 [0] v ≠ none) ∧
    ∃ sf, graph_teasar_component P2 0 (some [true, true]) none none (0 : ℤ) =
        .ok sf ∧
      ∀ v, ([true, true] : List Bool).getD v false = true →
        ∃ p ∈ sf.paths, ∃ u ∈ p, ole (sdist P2 [u] v) (some (0 : ℤ)) :=
  ⟨⟨by decide, by decide, by decide, by decide, by decide, by decide⟩,
   C1_coverage P2 (by decide) (by decide) 0 [true, true] 0 (by decide)
     (by decide) (by decide) (by decide)⟩

theorem C2_monotone_termination_witness :
    (P2.Nonneg ∧ P2.Symm ∧ 0 < P2.n ∧
      ([true, true] : List Bool).length = P2.n ∧ (0 : ℤ) ≤ 1 ∧
      ∀ v, v < P2.n → ([true, true] : List Bool).getD v false = true →
        sdist P2 [0] v ≠ none) ∧
    ((∃ sf, graph_teasar_component P2 0 (some [true, true]) none none
        (1 : ℤ) = .ok sf ∧ countTrue sf.valid = 0) ∧
     ∀ k s s2, reach_state P2 0 [true, true] (1 : ℤ) k = some s →
       reach_state P2 0 [true, true] (1 : ℤ) (k + 1) = some s2 →
       (∀ v, s2.valid.getD v false = true → s.valid.getD v false = true) ∧
       countTrue s2.valid < countTrue s.valid ∧
       ∃ target tval path,
         selectTarget P2 (dijkstraDs P2 0) s.valid = some (target, tval) ∧
         s2.paths = s.paths ++ [path] ∧ path.headD 0 = target ∧
         sdist P2 path target = some 0 ∧
         s2.valid.getD target false = false) :=
  ⟨⟨by decide, by decide, by decide, by decide, by decide, by decide⟩,
   C2_monotone_termination P2 (by decide) (by decide) 0 [true, true] 1
     (by decide) (by decide) (by decide) (by decide)⟩

theorem C3_path_exactness_witness :
    (P2.Nonneg ∧
      (graph_teasar_component P2 0 (some [true, true]) none none
        (1 : ℤ)).toOption.map (fun s => (s.paths, s.plens)) =
        some ([[1, 0]], [1])) ∧
    List.Forall₂ (PathSpec P2) [[1, 0]] [1] :=
  ⟨⟨by decide, by decide⟩,
   C3_path_exactness P2 (by decide) 0 (some [true, true]) none none 1
     [[1, 0]] [1] (by decide)⟩

theorem C4_radius_bound_witness :
    (P2.Nonneg ∧ P2.Symm ∧ 0 < P2.n ∧ (0 : ℤ) ≤ 1) ∧
    ∃ s2 target tval dt bb db branch plen,
      stepE P2 (dijkstraDs P2 0) (dijkstraPredArr P2 0) 1 sTT = .ok s2 ∧
      selectTarget P2 (dijkstraDs P2 0) sTT.valid = some (target, tval) ∧
      sdist P2 [0] target = some dt ∧
      bbWalk (dijkstraPredArr P2 0) sTT.visited (P2.n + 1) target = .ok bb ∧
      bb ∈ sTT.visited ∧
      sdist P2 [0] bb = some db ∧ db ≤ dt ∧
      ole (sdist P2 [target] bb) (some (dt - db)) ∧
      argminList (fun v => limDist P2 [target] (dt - db) v) sTT.visited =
        some branch ∧
      limDist P2 [target] (dt - db) branch = some plen :=
  ⟨⟨by decide, by decide, by decide, by decide⟩,
   C4_radius_bound P2 (by decide) (by decide) 0 [true, true] 1 (by decide)
     (by decide) 0 sTT rfl (by decide)⟩

theorem C5_target_selection_witness :
    ∃ target tval,
      selectTarget P2 (dijkstraDs P2 0) sTT.valid = some (target, tval) ∧
      sTT.valid.getD target false = true ∧ tval = dijkstraDs P2 0 target ∧
      (∀ u, u < P2.n → sTT.valid.getD u false = true →
        ole (dijkstraDs P2 0 u) (dijkstraDs P2 0 target)) ∧
      (∀ u, u < target → sTT.valid.getD u false = true →
        olt (dijkstraDs P2 0 u) (dijkstraDs P2 0 target)) ∧
      (stepE P2 (dijkstraDs P2 0) (dijkstraPredArr P2 0) 1 sTT =
          .error .targetUnreachable ↔ dijkstraDs P2 0 target = none) :=
  C5_target_selection P2 (dijkstraDs P2 0) (dijkstraPredArr P2 0) 1 sTT
    ⟨1, by decide, by decide, by decide⟩

theorem C6_skeleton_map_witness :
    P2.Nonneg ∧
    ((∀ k s, reach_state P2 0 [true, true] (1 : ℤ) k = some s → ∀ v,
       s.mdist v = sweepMin P2 1 s.paths v ∧
       (s.mdist v ≠ none → ∃ u p, s.mmap v = some u ∧ p ∈ s.paths ∧ u ∈ p ∧
         sdist P2 [u] v = s.mdist v ∧ limDist P2 p 1 v = s.mdist v)) ∧
     ∀ k s s2, reach_state P2 0 [true, true] (1 : ℤ) k = some s →
       reach_state P2 0 [true, true] (1 : ℤ) (k + 1) = some s2 → ∀ v,
       (s2.mdist v = s.mdist v ∧ s2.mmap v = s.mmap v) ∨
         (olt (s2.mdist v) (s.mdist v) ∧ ∃ path,
           s2.paths = s.paths ++ [path] ∧
           s2.mdist v = limDist P2 path 1 v)) :=
  ⟨by decide, C6_skeleton_map P2 (by decide) 0 [true, true] 1⟩

theorem C7_single_vertex_witness :
    (G1.Nonneg ∧ ([true] : List Bool).length = G1.n ∧ 0 < G1.n ∧
      ([true] : List Bool).getD 0 false = true ∧
      ∀ v, v < G1.n → ([true] : List Bool).getD v false = true → v = 0) ∧
    find_far_points_graph G1 (some [true]) =
      .ok ⟨0, 0, none, some 0, none, 1⟩ :=
  ⟨⟨by decide, by decide, by decide, by decide, by decide⟩,
   C7_single_vertex G1 (by decide) [true] 0 (by decide) (by decide)
     (by decide) (by decide)⟩

theorem C8_mask_length_witness :
    ([true, true] : List Bool).length ≠ G1.n ∧
    (component_init G1 0 (some [true, true])
        (some (fun _ => (none : Option ℤ))) (some (fun _ => none)) =
      (0, .error .maskLen) ∧
     component_init G1 0 (some [true, true]) none none =
      (1, .error .maskLen) ∧
     graph_teasar_component G1 0 (some [true, true])
        (some (fun _ => (none : Option ℤ))) (some (fun _ => none)) 0 =
      .error .maskLen ∧
     graph_teasar_component G1 0 (some [true, true]) none none (0 : ℤ) =
      .error .maskLen) :=
  ⟨by decide,
   C8_mask_length G1 0 [true, true] (fun _ => none) (fun _ => none) 0
     (by decide)⟩

theorem C9_shape_and_loops_witness :
    (Vt2.shape.length ≠ 2 ∨ Vt2.shape.getD 1 0 < 1 →
      create_spatial_csgraph (fun _ => (0 : ℤ)) Vt2 EsLoop false false =
        .error .badVerts) ∧
    (¬ (Vt2.shape.length ≠ 2 ∨ Vt2.shape.getD 1 0 < 1) →
      EsLoop.shape.length ≠ 2 ∨ EsLoop.shape.getD 1 0 ≠ 2 →
      create_spatial_csgraph (fun _ => (0 : ℤ)) Vt2 EsLoop false false =
        .error .badEdges) ∧
    ∀ g, create_spatial_csgraph (fun _ => (0 : ℤ)) Vt2 EsLoop false false =
        .ok g → ∀ u, g.w u u = 0 :=
  C9_shape_and_loops (fun _ => (0 : ℤ)) Vt2 EsLoop false false

theorem C10_visited_invariant_witness :
    (P2.Nonneg ∧ 1 < P2.n ∧
      ([true, false] : List Bool).getD 1 false = false) ∧
    ∀ k s, reach_state P2 1 [true, false] (1 : ℤ) k = some s →
      (∀ v ∈ s.visited, s.valid.getD v false = false) ∧
      s.visited.Nodup ∧
      (∀ p ∈ s.paths, 2 ≤ p.length ∧ p.Nodup) ∧
      ∀ target tval dt, countTrue s.valid ≠ 0 →
        selectTarget P2 (dijkstraDs P2 1) s.valid = some (target, tval) →
        sdist P2 [1] target = some dt → target ∉ s.visited :=
  ⟨⟨by decide, by decide, by decide⟩,
   C10_visited_invariant P2 (by decide) 1 [true, false] 1 (by decide)
     (by decide)⟩

end GraphTEASAR
